import Mathlib

/-!
Verification of the dependency-graph indexing and per-package argument-derivation
engine of `cargo-verus` (source: `source/cargo-verus/src/main.rs`).

The development shallowly embeds the Rust source into Lean:
* `BTreeMap` values are modelled as association lists kept sorted by key
  (`insertNew` returns `none` exactly where the Rust `assert!(… .insert(…).is_none())`
  would panic, so a `none`/`.error` result models "the run aborts").
* `serde_json::Value` is modelled by the inductive `Json`; `cargo_metadata`'s
  `Metadata`, `Package`, `Node` and `NodeDep` records keep just the fields the
  program reads.  A cargo `PackageId` is its opaque string representation.
* Fallible Rust code (`Result`, `assert!`, `.unwrap()`) becomes `Except`/`Option`.
* Machine integers in the SHA-256 digest are `Nat` reduced mod 2^32 explicitly.
-/

/-! ## Association-list maps (model of `BTreeMap` with panicking duplicate checks) -/

/-- Model of `assert!(map.insert(k, v).is_none())` on a `BTreeMap` held as an
association list sorted by key: `none` when the key is already present
(the Rust assertion would panic), otherwise the list with `(k, v)` inserted
at its ordered position. -/
def insertNew {α : Type} (k : String) (v : α) : List (String × α) → Option (List (String × α))
  | [] => some [(k, v)]
  | (k', v') :: rest =>
    if k.data < k'.data then some ((k, v) :: (k', v') :: rest)
    else if k = k' then none
    else (insertNew k v rest).map (fun m => (k', v') :: m)

/-- Model of `BTreeMap::get`: first entry with the given key. -/
def lookupA {α : Type} (k : String) : List (String × α) → Option α
  | [] => none
  | (k', v) :: rest => if k = k' then some v else lookupA k rest

/-- Model of `BTreeMap::remove`: the value at `k` together with the map without
that entry, or `none` when the key is absent. -/
def removeA {α : Type} (k : String) : List (String × α) → Option (α × List (String × α))
  | [] => none
  | (k', v) :: rest =>
    if k = k' then some (v, rest)
    else (removeA k rest).map (fun p => (p.1, (k', v) :: p.2))

/-! ## Data model (cargo metadata as seen by the program) -/

/-- Model of `serde_json::Value`.  Numbers are kept as integers: the program
only ever distinguishes booleans structurally, so the number payload is inert. -/
inductive Json where
  | null : Json
  | bool (b : Bool) : Json
  | num (n : Int) : Json
  | str (s : String) : Json
  | arr (elems : List Json) : Json
  | obj (fields : List (String × Json)) : Json

/-- Cargo package ids are opaque strings (`PackageId { repr: String }`). -/
abbrev PackageId := String

/-- One resolved dependency edge: the name under which the dependent declares
the dependency, and the target package's id (`cargo_metadata::NodeDep`). -/
structure NodeDep where
  name : String
  pkg : PackageId
deriving DecidableEq, Repr

/-- One node of the resolved dependency graph (`cargo_metadata::Node`). -/
structure ResolveNode where
  id : PackageId
  deps : List NodeDep
deriving DecidableEq, Repr

/-- The resolved graph (`cargo_metadata::Resolve`), just the node list. -/
structure Resolve where
  nodes : List ResolveNode
deriving DecidableEq, Repr

/-- A package record (`cargo_metadata::Package`), restricted to the fields the
program reads.  `version` is kept as its display string. -/
structure Package where
  id : PackageId
  name : String
  version : String
  manifest_path : String
  metadata : Json

/-- The resolved workspace metadata (`cargo_metadata::Metadata`), restricted to
the fields the program reads. -/
structure Metadata where
  packages : List Package
  resolve : Option Resolve

/-- The `[package.metadata.verus]` record (struct `VerusMetadata` in the source,
all fields `#[serde(default)]`). -/
structure VerusMetadata where
  verify : Bool
  no_vstd : Bool
  is_vstd : Bool
  is_core : Bool
  is_builtin : Bool
  is_builtin_macros : Bool
deriving DecidableEq, Repr

/-- The all-defaults record produced by `Default::default()`: every flag false. -/
def VerusMetadata.default : VerusMetadata :=
  { verify := false, no_vstd := false, is_vstd := false, is_core := false,
    is_builtin := false, is_builtin_macros := false }

/-! ## Tool metadata extraction (`VerusMetadata::parse_from_package`) -/

/-- Model of `serde_json::Value::as_object`. -/
def Json.asObject : Json → Option (List (String × Json))
  | .obj fields => some fields
  | _ => none

/-- The `verus` sub-object of a package's metadata block:
`package.metadata.as_object().and_then(|obj| obj.get("verus"))`. -/
def verusValue (p : Package) : Option Json :=
  p.metadata.asObject.bind (lookupA "verus")

/-- Model of serde's handling of one `#[serde(default)] bool` field when
deserializing from a JSON map: absent means `false`, a boolean is taken as is,
any other shape is a type error. -/
def getBoolField (fields : List (String × Json)) (fieldName : String) : Except String Bool :=
  match lookupA fieldName fields with
  | none => .ok false
  | some (.bool b) => .ok b
  | some _ => .error ("invalid type for field " ++ fieldName)

/-- Model of `serde_json::from_value::<VerusMetadata>` on a JSON value: the
value must be a map; each known field is an optional boolean (serde field
renames `no-vstd`, `is-vstd`, `is-core`, `is-builtin`, `is-builtin-macros`);
unknown fields are ignored (serde's default).  The serde alternative of
deserializing a struct from a JSON array is not modelled: Cargo.toml metadata
always surfaces as maps. -/
def deserializeVerusMetadata : Json → Except String VerusMetadata
  | .obj fields => do
    let verify ← getBoolField fields "verify"
    let noVstd ← getBoolField fields "no-vstd"
    let isVstd ← getBoolField fields "is-vstd"
    let isCore ← getBoolField fields "is-core"
    let isBuiltin ← getBoolField fields "is-builtin"
    let isBuiltinMacros ← getBoolField fields "is-builtin-macros"
    .ok { verify := verify, no_vstd := noVstd, is_vstd := isVstd, is_core := isCore,
          is_builtin := isBuiltin, is_builtin_macros := isBuiltinMacros }
  | _ => .error "invalid type: expected a map"

/-- `VerusMetadata::parse_from_package`: absent `verus` key gives the
all-defaults record; a present value is deserialized structurally, wrapping
failures in a diagnostic naming the package and version (the `with_context`
message `Failed to parse {name}-{version}.metadata.verus`). -/
def VerusMetadata.parse_from_package (p : Package) : Except String VerusMetadata :=
  match verusValue p with
  | some value =>
    match deserializeVerusMetadata value with
    | .ok vm => .ok vm
    | .error e =>
      .error ("Failed to parse " ++ p.name ++ "-" ++ p.version ++ ".metadata.verus: " ++ e)
  | none => .ok VerusMetadata.default

/-! ## Dependency graph index (`MetadataIndex`) -/

/-- One index entry (`MetadataIndexEntry`): the package, its extracted tool
metadata, and its dependency edges keyed by declared name. -/
structure MetadataIndexEntry where
  package : Package
  verus_metadata : VerusMetadata
  deps : List (String × NodeDep)

/-- The index (`MetadataIndex`): entries keyed by package id. -/
structure MetadataIndex where
  entries : List (PackageId × MetadataIndexEntry)

/-- The inner loop of `MetadataIndex::new` building one node's
`BTreeMap<&str, &NodeDep>`: `assert!(deps.insert(dep.name.as_str(), dep).is_none())`
for each dependency edge, in edge-list order. -/
def buildNodeDepsAux (acc : List (String × NodeDep)) :
    List NodeDep → Except String (List (String × NodeDep))
  | [] => .ok acc
  | d :: ds =>
    match insertNew d.name d acc with
    | some acc' => buildNodeDepsAux acc' ds
    | none => .error "assertion failed: duplicate dependency name"

/-- The per-node dependency map of `MetadataIndex::new`. -/
def buildNodeDeps (deps : List NodeDep) : Except String (List (String × NodeDep)) :=
  buildNodeDepsAux [] deps

/-- The first loop of `MetadataIndex::new` building `deps_by_package`:
for each resolve node, build its dependency map and
`assert!(deps_by_package.insert(&node.id, deps).is_none())`. -/
def buildDepsByPackageAux (acc : List (PackageId × List (String × NodeDep))) :
    List ResolveNode → Except String (List (PackageId × List (String × NodeDep)))
  | [] => .ok acc
  | n :: ns =>
    match buildNodeDeps n.deps with
    | .error e => .error e
    | .ok deps =>
      match insertNew n.id deps acc with
      | some acc' => buildDepsByPackageAux acc' ns
      | none => .error "assertion failed: duplicate node id"

/-- `deps_by_package` of `MetadataIndex::new`. -/
def buildDepsByPackage (nodes : List ResolveNode) :
    Except String (List (PackageId × List (String × NodeDep))) :=
  buildDepsByPackageAux [] nodes

/-- The second loop of `MetadataIndex::new`: for each package, parse its tool
metadata (`?` propagates the error), take this package's dependency map out of
`deps_by_package` (`.remove(&package.id).unwrap()` panics when absent), and
`assert!(entries.insert(&package.id, entry).is_none())`. -/
def addEntriesAux (dbp : List (PackageId × List (String × NodeDep)))
    (entries : List (PackageId × MetadataIndexEntry)) :
    List Package →
    Except String (List (PackageId × List (String × NodeDep)) × List (PackageId × MetadataIndexEntry))
  | [] => .ok (dbp, entries)
  | p :: ps =>
    match VerusMetadata.parse_from_package p with
    | .error e => .error e
    | .ok vm =>
      match removeA p.id dbp with
      | none => .error "assertion failed: no resolve node for package"
      | some (deps, dbp') =>
        match insertNew p.id { package := p, verus_metadata := vm, deps := deps } entries with
        | none => .error "assertion failed: duplicate package id"
        | some entries' => addEntriesAux dbp' entries' ps

/-- `MetadataIndex::new`.  `assert!(metadata.resolve.is_some())` first, then the
two loops, then `assert!(deps_by_package.is_empty())`.  Any `assert!`/`unwrap`
panic and any metadata parse error make the whole construction fail. -/
def MetadataIndex.new (m : Metadata) : Except String MetadataIndex :=
  match m.resolve with
  | none => .error "assertion failed: metadata.resolve.is_some()"
  | some r =>
    match buildDepsByPackage r.nodes with
    | .error e => .error e
    | .ok dbp =>
      match addEntriesAux dbp [] m.packages with
      | .error e => .error e
      | .ok (rest, entries) =>
        if rest.isEmpty then .ok { entries := entries }
        else .error "assertion failed: deps_by_package.is_empty()"

/-- `MetadataIndex::get`: the `self.entries.get(id).unwrap()`; `none` models the
panic of the `unwrap` on a missing id. -/
def MetadataIndex.get (idx : MetadataIndex) (id : PackageId) : Option MetadataIndexEntry :=
  lookupA id idx.entries

/-- `MetadataIndex::entries`: the entry values in the map's ascending-key order. -/
def MetadataIndex.entryValues (idx : MetadataIndex) : List MetadataIndexEntry :=
  idx.entries.map Prod.snd

/-- The resolve node list of a metadata record (empty when `resolve` is absent);
convenience accessor used to state graph-shaped hypotheses without binding the
`Resolve` record. -/
def resolveNodes (m : Metadata) : List ResolveNode :=
  match m.resolve with
  | some r => r.nodes
  | none => []

/-- All node ids of the resolved graph. -/
def nodeIds (m : Metadata) : List PackageId :=
  (resolveNodes m).map ResolveNode.id

/-- All package ids of the package list. -/
def packageIds (m : Metadata) : List PackageId :=
  m.packages.map Package.id

/-- All dependency-edge target ids of the resolved graph. -/
def depTargets (m : Metadata) : List PackageId :=
  ((resolveNodes m).map (fun n => n.deps.map NodeDep.pkg)).flatten

/-! ## Per-package instruction derivation (`VerusCmd::into_std_cmd`, lines 192-213) -/

/-- The dependency-import instruction for one declared dependency name:
`--verus-driver-arg=--import-dep-if-present=<name>`. -/
def importDepInstr (depName : String) : String :=
  "--verus-driver-arg=--import-dep-if-present=" ++ depName

/-- The role instructions pushed for a verified package, in source order:
`is_core`, then `is_vstd`, then `no_vstd`. -/
def roleArgs (vm : VerusMetadata) : List String :=
  (if vm.is_core then ["--verus-arg=--is-core"] else []) ++
  (if vm.is_vstd then ["--verus-arg=--is-vstd"] else []) ++
  (if vm.no_vstd then ["--verus-arg=--no-vstd"] else [])

/-- The dependency loop of the derivation: for each edge of the entry (in the
map's ascending-name order), look the target up in the index (`get`'s `unwrap`
may panic, modelled by `none`), and keep an import instruction exactly for
targets whose metadata has `verify == true`. -/
def deriveDepArgs (idx : MetadataIndex) :
    List (String × NodeDep) → Option (List String)
  | [] => some []
  | (_, dep) :: ds =>
    match idx.get dep.pkg with
    | none => none
    | some depEntry =>
      (deriveDepArgs idx ds).map (fun tail =>
        (if depEntry.verus_metadata.verify then [importDepInstr dep.name] else []) ++ tail)

/-- The full per-package instruction list `verus_driver_args_for_package` built
for an entry with `verify == true`: role instructions, then dependency-import
instructions. -/
def verus_driver_args_for_package (idx : MetadataIndex) (e : MetadataIndexEntry) :
    Option (List String) :=
  (deriveDepArgs idx e.deps).map (fun depArgs => roleArgs e.verus_metadata ++ depArgs)

/-- Follows the spec's words (§4.4): one role instruction per true boolean among
`is_core`, `is_vstd`, `no_vstd` in that order, followed by one import
instruction per dependency edge whose target's metadata has `verify == true`,
in the index's stable (ascending declared-name) edge order; non-verified
dependencies contribute nothing. -/
def specInstructionList (idx : MetadataIndex) (e : MetadataIndexEntry) : List String :=
  roleArgs e.verus_metadata ++
  e.deps.filterMap (fun kd =>
    match idx.get kd.2.pkg with
    | some depEntry =>
      if depEntry.verus_metadata.verify then some (importDepInstr kd.2.name) else none
    | none => none)

/-! ## Command-line parsing (`VerusCmd::new`) -/

/-- The two cargo subcommands the tool selects between. -/
inductive CargoSubcommand where
  | build : CargoSubcommand
  | check : CargoSubcommand
deriving DecidableEq, Repr

/-- `CargoSubcommand::to_arg`. -/
def CargoSubcommand.toArg : CargoSubcommand → String
  | .build => "build"
  | .check => "check"

/-- The orchestrator command (`struct VerusCmd`). -/
structure VerusCmd where
  cargo_subcommand : CargoSubcommand
  cargo_args : List String
  common_verus_driver_args : List String
deriving DecidableEq, Repr

/-- The argument loop of `VerusCmd::new`: `--check` selects the check
subcommand, `--just-verify` sets the flag (neither is forwarded), `--` stops
the loop, anything else is forwarded to cargo.  Returns the selected
subcommand, the forwarded cargo arguments, the just-verify flag, and the
arguments remaining after `--`. -/
def newLoop : List String → CargoSubcommand → List String → Bool →
    CargoSubcommand × List String × Bool × List String
  | [], sub, cargoArgs, justVerify => (sub, cargoArgs, justVerify, [])
  | a :: rest, sub, cargoArgs, justVerify =>
    if a = "--check" then newLoop rest .check cargoArgs justVerify
    else if a = "--just-verify" then newLoop rest sub cargoArgs true
    else if a = "--" then (sub, cargoArgs, justVerify, rest)
    else newLoop rest sub (cargoArgs ++ [a]) justVerify

/-- `VerusCmd::new`: parse the arguments, then seed the common driver
instruction list with `--compile-when-not-primary-package`, add
`--compile-when-primary-package` unless `--just-verify` was given, and append
everything after `--`. -/
def VerusCmd.new (args : List String) : VerusCmd :=
  match newLoop args .build [] false with
  | (sub, cargoArgs, justVerify, rest) =>
    { cargo_subcommand := sub,
      cargo_args := cargoArgs,
      common_verus_driver_args :=
        ["--verus-driver-arg=--compile-when-not-primary-package"] ++
        (if justVerify then [] else ["--verus-driver-arg=--compile-when-primary-package"]) ++
        rest }

/-- Spec-side reading of "the `--just-verify` flag was given": the flag occurs
among the arguments before the first `--`. -/
def specJustVerify (args : List String) : Bool :=
  (args.takeWhile (fun a => a ≠ "--")).contains "--just-verify"

/-- Spec-side reading of "arguments routed to the per-invocation instruction
stream": everything after the first `--`. -/
def specPassthrough (args : List String) : List String :=
  (args.dropWhile (fun a => a ≠ "--")).drop 1

/-! ## Environment packing (`pack_verus_driver_args_for_env`) and unpacking -/

/-- The reserved separator token. -/
def SEP : String := "__VERUS_DRIVER_ARGS_SEP__"

/-- `pack_verus_driver_args_for_env`: map each instruction to the two-element
list `[SEP, instruction]`, flatten, and concatenate into one string. -/
def pack_verus_driver_args_for_env (args : List String) : String :=
  String.join ((args.map (fun arg => [SEP, arg])).flatten)

/-- Leftmost splitting on a separator token over character lists, fuelled so
that the recursion is structural (the fuel is always at least the input length
at every use site).  `acc` holds the current piece reversed. -/
def splitAux (sep : List Char) : Nat → List Char → List Char → List (List Char)
  | _, [], acc => [acc.reverse]
  | 0, s, acc => [acc.reverse ++ s]
  | fuel + 1, c :: cs, acc =>
    if sep.isPrefixOf (c :: cs) then
      acc.reverse :: splitAux sep fuel (List.drop sep.length (c :: cs)) []
    else
      splitAux sep fuel cs (c :: acc)

/-- Split a character list on every leftmost occurrence of `sep`. -/
def splitOnL (sep : List Char) (s : List Char) : List (List Char) :=
  splitAux sep s.length s []

/-- Modelled from the spec: the receiving driver process (not part of this
crate's source) unpacks an instruction-list environment value "by splitting on
that separator token".  Since packing prefixes the separator onto every
instruction, the piece before the first separator is empty and is dropped
(`skip(1)`); the empty packed string yields the empty list. -/
def unpack_verus_driver_args (s : String) : List String :=
  ((splitOnL SEP.data s.data).drop 1).map String.mk

/-- Whether `sep` occurs in `s` (as a contiguous substring). -/
def hasInfixTok (sep s : List Char) : Bool :=
  (List.range (s.length + 1)).any (fun i => sep.isPrefixOf (s.drop i))

/-- Whether the only occurrence of `sep` in `a ++ sep` is the final one: no
occurrence starts strictly inside `a` (this also rules out occurrences of
`sep` inside `a` itself, and occurrences straddling the boundary between `a`
and a following separator). -/
def boundaryClean (sep a : List Char) : Bool :=
  (List.range a.length).all (fun i => !(sep.isPrefixOf ((a ++ sep).drop i)))

/-- Spec-side packed form: the concatenation of the separator token prefixed
onto each instruction, in order. -/
def specPacked (args : List String) : String :=
  String.join (args.map (fun a => SEP ++ a))

/-- Character-list version of packing, used to reason about the round trip. -/
def packL (sep : List Char) (args : List (List Char)) : List Char :=
  (args.map (fun a => sep ++ a)).flatten

/-! ## Filtering cargo arguments for the metadata query (`filter_args`) -/

/-- Rust's `str::strip_prefix`, modelled at the character-list level (for a
whole-character prefix this coincides with byte-level prefix stripping). -/
def stripPrefixStr (flag s : String) : Option String :=
  if flag.data.isPrefixOf s.data then some (String.mk (s.data.drop flag.data.length)) else none

/-- `filter_args`, translated with its actual control flow: standalone flags
are kept; flags-with-values are kept together with the following argument
(error when no argument follows); otherwise the `for flag in flags_with_values`
loop runs its body once and `break`s unconditionally, so only the FIRST
flag-with-values is ever tested in its `<flag>=<value>` single-token form. -/
def filter_args (origArgs standaloneFlags flagsWithValues : List String) :
    Except String (List String) :=
  match origArgs with
  | [] => .ok []
  | [arg] =>
    if standaloneFlags.any (fun flag => flag = arg) then .ok [arg]
    else if flagsWithValues.any (fun flag => flag = arg) then
      .error ("Expected " ++ arg ++ " to be followed by a value")
    else
      match flagsWithValues with
      | [] => .ok []
      | flag :: _ =>
        match (stripPrefixStr flag arg).bind (stripPrefixStr "=") with
        | some _ => .ok [arg]
        | none => .ok []
  | arg :: v :: rest' =>
    if standaloneFlags.any (fun flag => flag = arg) then
      (filter_args (v :: rest') standaloneFlags flagsWithValues).map (fun acc => arg :: acc)
    else if flagsWithValues.any (fun flag => flag = arg) then
      (filter_args rest' standaloneFlags flagsWithValues).map (fun acc => arg :: v :: acc)
    else
      match flagsWithValues with
      | [] => filter_args (v :: rest') standaloneFlags flagsWithValues
      | flag :: _ =>
        match (stripPrefixStr flag arg).bind (stripPrefixStr "=") with
        | some _ =>
          (filter_args (v :: rest') standaloneFlags flagsWithValues).map (fun acc => arg :: acc)
        | none => filter_args (v :: rest') standaloneFlags flagsWithValues

/-- The standalone flags passed by `VerusCmd::metadata`. -/
def metadataStandaloneFlags : List String := ["--frozen", "--locked", "--offline"]

/-- The flags-with-values passed by `VerusCmd::metadata`. -/
def metadataFlagsWithValues : List String := ["--config", "--manifest-path", "-Z"]

/-! ## Canonical package id (`mk_package_id`) and SHA-256

The digest is computed over the UTF-8 bytes of the manifest path, hex-encoded
in lowercase, and truncated to its first 12 characters.  SHA-256 (FIPS 180-4)
is embedded over `Nat` with explicit reduction mod 2^32. -/

/-- Reduce mod 2^32. -/
def w32 (n : Nat) : Nat := n % 4294967296

/-- 32-bit right rotation. -/
def rotr32 (r x : Nat) : Nat := w32 ((x >>> r) ||| (x <<< (32 - r)))

/-- 32-bit complement. -/
def not32 (x : Nat) : Nat := 4294967295 ^^^ x

/-- SHA-256 `Ch(x,y,z)`. -/
def sha256Ch (x y z : Nat) : Nat := (x &&& y) ^^^ (not32 x &&& z)

/-- SHA-256 `Maj(x,y,z)`. -/
def sha256Maj (x y z : Nat) : Nat := (x &&& y) ^^^ (x &&& z) ^^^ (y &&& z)

/-- SHA-256 `Σ0`. -/
def bigSigma0 (x : Nat) : Nat := rotr32 2 x ^^^ rotr32 13 x ^^^ rotr32 22 x

/-- SHA-256 `Σ1`. -/
def bigSigma1 (x : Nat) : Nat := rotr32 6 x ^^^ rotr32 11 x ^^^ rotr32 25 x

/-- SHA-256 `σ0`. -/
def smallSigma0 (x : Nat) : Nat := rotr32 7 x ^^^ rotr32 18 x ^^^ (x >>> 3)

/-- SHA-256 `σ1`. -/
def smallSigma1 (x : Nat) : Nat := rotr32 17 x ^^^ rotr32 19 x ^^^ (x >>> 10)

/-- The 64 SHA-256 round constants. -/
def sha256K : List Nat :=
  [1116352408, 1899447441, 3049323471, 3921009573, 961987163, 1508970993,
   2453635748, 2870763221, 3624381080, 310598401, 607225278, 1426881987,
   1925078388, 2162078206, 2614888103, 3248222580, 3835390401, 4022224774,
   264347078, 604807628, 770255983, 1249150122, 1555081692, 1996064986,
   2554220882, 2821834349, 2952996808, 3210313671, 3336571891, 3584528711,
   113926993, 338241895, 666307205, 773529912, 1294757372, 1396182291,
   1695183700, 1986661051, 2177026350, 2456956037, 2730485921, 2820302411,
   3259730800, 3345764771, 3516065817, 3600352804, 4094571909, 275423344,
   430227734, 506948616, 659060556, 883997877, 958139571, 1322822218,
   1537002063, 1747873779, 1955562222, 2024104815, 2227730452, 2361852424,
   2428436474, 2756734187, 3204031479, 3329325298]

/-- The SHA-256 working state (one 32-bit word per register). -/
structure Sha256State where
  a : Nat
  b : Nat
  c : Nat
  d : Nat
  e : Nat
  f : Nat
  g : Nat
  h : Nat
deriving Repr

/-- The SHA-256 initial hash value. -/
def sha256H0 : Sha256State :=
  { a := 1779033703, b := 3144134277, c := 1013904242, d := 2773480762,
    e := 1359893119, f := 2600822924, g := 528734635, h := 1541459225 }

/-- One SHA-256 round, given the round word and round constant. -/
def sha256Round (st : Sha256State) (wk : Nat × Nat) : Sha256State :=
  let t1 := w32 (st.h + bigSigma1 st.e + sha256Ch st.e st.f st.g + wk.2 + wk.1)
  let t2 := w32 (bigSigma0 st.a + sha256Maj st.a st.b st.c)
  { a := w32 (t1 + t2), b := st.a, c := st.b, d := st.c,
    e := w32 (st.d + t1), f := st.e, g := st.f, h := st.g }

/-- Extend the reversed message-schedule list by `n` words (head is latest). -/
def sha256Extend : Nat → List Nat → List Nat
  | 0, revWs => revWs
  | n + 1, revWs =>
    sha256Extend n
      (w32 (smallSigma1 (revWs.getD 1 0) + revWs.getD 6 0 +
            smallSigma0 (revWs.getD 14 0) + revWs.getD 15 0) :: revWs)

/-- The 64-word message schedule of one block (given as 16 words). -/
def sha256Schedule (block : List Nat) : List Nat :=
  (sha256Extend 48 block.reverse).reverse

/-- Compress one 512-bit block (16 big-endian 32-bit words) into the state. -/
def sha256Compress (st : Sha256State) (block : List Nat) : Sha256State :=
  let ws := sha256Schedule block
  let t := (ws.zip sha256K).foldl sha256Round st
  { a := w32 (st.a + t.a), b := w32 (st.b + t.b), c := w32 (st.c + t.c),
    d := w32 (st.d + t.d), e := w32 (st.e + t.e), f := w32 (st.f + t.f),
    g := w32 (st.g + t.g), h := w32 (st.h + t.h) }

/-- Big-endian bytes of a number, fixed width. -/
def toBytesBE : Nat → Nat → List Nat
  | 0, _ => []
  | width + 1, n => (n >>> (8 * width)) % 256 :: toBytesBE width n

/-- SHA-256 padding: append `0x80`, zeros to 56 mod 64, and the bit length as
8 big-endian bytes. -/
def sha256Pad (msg : List Nat) : List Nat :=
  let len := msg.length
  let r := (len + 1) % 64
  let zeros := if r ≤ 56 then 56 - r else 120 - r
  msg ++ [0x80] ++ List.replicate zeros 0 ++ toBytesBE 8 (8 * len)

/-- Group a byte list into big-endian 32-bit words (4 bytes per word), fuelled
structurally; the fuel is the list length at the use site. -/
def bytesToWords : Nat → List Nat → List Nat
  | _, [] => []
  | 0, _ => []
  | fuel + 1, bytes =>
    (bytes.take 4).foldl (fun acc b => acc * 256 + b) 0 :: bytesToWords fuel (bytes.drop 4)

/-- Group a word list into 16-word blocks, fuelled structurally. -/
def wordsToBlocks : Nat → List Nat → List (List Nat)
  | _, [] => []
  | 0, _ => []
  | fuel + 1, ws => ws.take 16 :: wordsToBlocks fuel (ws.drop 16)

/-- The SHA-256 digest of a byte list, as 32 bytes. -/
def sha256Bytes (msg : List Nat) : List Nat :=
  let padded := sha256Pad msg
  let blocks := wordsToBlocks padded.length (bytesToWords padded.length padded)
  let st := blocks.foldl sha256Compress sha256H0
  toBytesBE 4 st.a ++ toBytesBE 4 st.b ++ toBytesBE 4 st.c ++ toBytesBE 4 st.d ++
  toBytesBE 4 st.e ++ toBytesBE 4 st.f ++ toBytesBE 4 st.g ++ toBytesBE 4 st.h

/-- Lowercase hex digit. -/
def hexDigit (n : Nat) : Char :=
  if n < 10 then Char.ofNat (48 + n) else Char.ofNat (87 + n)

/-- Lowercase hex encoding of a byte list (`hex::encode`). -/
def hexEncode (bytes : List Nat) : List Char :=
  (bytes.map (fun b => [hexDigit (b / 16), hexDigit (b % 16)])).flatten

/-- UTF-8 encoding of one character, as byte values. -/
def utf8Bytes (c : Char) : List Nat :=
  let n := c.toNat
  if n < 128 then [n]
  else if n < 2048 then [192 + n / 64, 128 + n % 64]
  else if n < 65536 then [224 + n / 4096, 128 + n / 64 % 64, 128 + n % 64]
  else [240 + n / 262144, 128 + n / 4096 % 64, 128 + n / 64 % 64, 128 + n % 64]

/-- The UTF-8 bytes of a string (`str::as_bytes`). -/
def strBytes (s : String) : List Nat :=
  (s.data.map utf8Bytes).flatten

/-- The lowercase hex SHA-256 digest of a string's UTF-8 bytes, as characters. -/
def manifestPathHash (manifest_path : String) : List Char :=
  hexEncode (sha256Bytes (strBytes manifest_path))

/-- `mk_package_id`: `{name}-{version}-{first 12 hex chars of sha256(manifest_path)}`.
The Rust slice `&hash[..12]` is a byte slice, but the hex encoding is ASCII so
it coincides with taking the first 12 characters. -/
def mk_package_id (name version manifest_path : String) : String :=
  name ++ "-" ++ version ++ "-" ++ String.mk ((manifestPathHash manifest_path).take 12)

/-! ## Driver version gate (`checked_verus_driver_path` and helpers)

`semver::Version` and `semver::VersionReq` are external crate types; they are
modelled from their documented behavior just as far as the program uses them:
parsing `major.minor.patch[-pre][+build]` and matching against the exact
requirement `=0.1.0`. -/

/-- A semantic version: numeric core plus raw pre-release and build-metadata
text. -/
structure SemVer where
  major : Nat
  minor : Nat
  patch : Nat
  pre : String
  build : String
deriving DecidableEq, Repr

/-- Numeric value of a digit list. -/
def digitsVal (ds : List Char) : Nat :=
  ds.foldl (fun acc c => acc * 10 + (c.toNat - 48)) 0

/-- Modelled from the semver crate: a numeric identifier is a nonempty digit
run without a leading zero (except `0` itself). -/
def parseNumStrict (ds : List Char) : Option Nat :=
  match ds with
  | [] => none
  | ['0'] => some 0
  | '0' :: _ :: _ => none
  | _ => some (digitsVal ds)

/-- Split a character list at every `.`. -/
def splitDotsAux : List Char → List Char → List (List Char)
  | [], acc => [acc.reverse]
  | '.' :: cs, acc => acc.reverse :: splitDotsAux cs []
  | c :: cs, acc => splitDotsAux cs (c :: acc)

/-- Dot-separated components. -/
def splitDots (cs : List Char) : List (List Char) :=
  splitDotsAux cs []

/-- Characters legal in pre-release/build identifiers. -/
def isIdentChar (c : Char) : Bool :=
  c.isAlphanum || c = '-'

/-- Modelled from the semver crate: a pre-release identifier is nonempty,
alphanumeric-or-hyphen, and if fully numeric has no leading zero. -/
def validPreIdent (cs : List Char) : Bool :=
  !cs.isEmpty && cs.all isIdentChar &&
    (if cs.all Char.isDigit then (parseNumStrict cs).isSome else true)

/-- Modelled from the semver crate: a build identifier is nonempty and
alphanumeric-or-hyphen (leading zeros allowed). -/
def validBuildIdent (cs : List Char) : Bool :=
  !cs.isEmpty && cs.all isIdentChar

/-- Validate pre-release text (dot-separated identifiers). -/
def validPre (cs : List Char) : Bool :=
  (splitDots cs).all validPreIdent

/-- Validate build-metadata text (dot-separated identifiers). -/
def validBuild (cs : List Char) : Bool :=
  (splitDots cs).all validBuildIdent

/-- Parse the optional `-pre` / `+build` tail after the numeric core. -/
def parseTail (cs : List Char) : Option (String × String) :=
  match cs with
  | [] => some ("", "")
  | '-' :: rest =>
    let preCs := rest.takeWhile (fun c => c ≠ '+')
    let after := rest.dropWhile (fun c => c ≠ '+')
    if validPre preCs then
      match after with
      | [] => some (String.mk preCs, "")
      | _ :: buildCs =>
        if validBuild buildCs then some (String.mk preCs, String.mk buildCs) else none
    else none
  | '+' :: buildCs =>
    if validBuild buildCs then some ("", String.mk buildCs) else none
  | _ => none

/-- Modelled from the semver crate: `Version::parse` on
`major.minor.patch[-pre][+build]`. -/
def SemVer.parse (s : String) : Option SemVer :=
  let cs := s.data
  let majDs := cs.takeWhile Char.isDigit
  match parseNumStrict majDs with
  | none => none
  | some major =>
    match cs.dropWhile Char.isDigit with
    | '.' :: cs2 =>
      let minDs := cs2.takeWhile Char.isDigit
      match parseNumStrict minDs with
      | none => none
      | some minor =>
        match cs2.dropWhile Char.isDigit with
        | '.' :: cs3 =>
          let patDs := cs3.takeWhile Char.isDigit
          match parseNumStrict patDs with
          | none => none
          | some patch =>
            (parseTail (cs3.dropWhile Char.isDigit)).map (fun pb =>
              { major := major, minor := minor, patch := patch,
                pre := pb.1, build := pb.2 })
        | _ => none
    | _ => none

/-- Modelled from the semver crate: the requirement `=0.1.0`
(`verus_driver_version_req`) matches exactly version 0.1.0 with empty
pre-release (build metadata is ignored by semver matching). -/
def versionReqMatches (v : SemVer) : Bool :=
  v.major = 0 && v.minor = 1 && v.patch = 0 && v.pre = ""

/-- Whitespace tokenization (Rust `str::split_whitespace`): maximal nonempty
runs of non-whitespace characters.  `acc` holds the current token reversed. -/
def splitWsAux : List Char → List Char → List String
  | [], [] => []
  | [], acc => [String.mk acc.reverse]
  | c :: cs, acc =>
    if c.isWhitespace then
      match acc with
      | [] => splitWsAux cs []
      | _ => String.mk acc.reverse :: splitWsAux cs []
    else splitWsAux cs (c :: acc)

/-- The whitespace-separated tokens of a string. -/
def splitWs (s : String) : List String :=
  splitWsAux s.data []

/-- `parse_verus_driver_version_output`: the first token must be
`verus-driver`, the second must parse as a version; further tokens are
ignored; too few tokens fail. -/
def parse_verus_driver_version_output (stdout : String) : Option SemVer :=
  match splitWs stdout with
  | [] => none
  | first :: rest =>
    if first = "verus-driver" then
      match rest with
      | [] => none
      | second :: _ => SemVer.parse second
    else none

/-- Outcome of the version-probe subprocess (`verus-driver --verus-driver-arg=--version`),
abstracting the I/O: spawn failure, exit with failure status, or exit with
success and a stdout (`none` stdout models invalid UTF-8). -/
inductive ProbeOutcome where
  | spawnFailed : ProbeOutcome
  | exited (success : Bool) (stdout : Option String) : ProbeOutcome
deriving DecidableEq, Repr

/-- `get_verus_driver_version` as a function of the probe outcome: spawn
failure, non-success exit status, invalid UTF-8, and unparseable output are
errors; otherwise the parsed version. -/
def get_verus_driver_version (probe : ProbeOutcome) : Except String SemVer :=
  match probe with
  | .spawnFailed => .error "Failed to read output of command"
  | .exited false _ => .error "Command failed"
  | .exited true none => .error "Command did not produce valid utf-8"
  | .exited true (some stdout) =>
    match parse_verus_driver_version_output stdout with
    | some v => .ok v
    | none => .error "Command did not produce valid output"

/-- `checked_verus_driver_path` as a function of the probe outcome: the probed
version must satisfy the requirement `=0.1.0`, otherwise the run fails before
any cargo invocation.  (The path value itself is irrelevant here and elided.) -/
def checked_verus_driver_path (probe : ProbeOutcome) : Except String Unit :=
  match get_verus_driver_version probe with
  | .error e => .error e
  | .ok v =>
    if versionReqMatches v then .ok ()
    else .error "verus-driver version must match =0.1.0"

/-! ## Environment assembly (`VerusCmd::into_std_cmd`) -/

/-- The per-entry environment contribution of the `into_std_cmd` loop:
builtin flags, then (for verified packages) the verify flag and — when the
derived instruction list is non-empty — the packed per-package instruction
list under `__VERUS_DRIVER_ARGS_FOR_<id>`.  `none` models the panic of
`MetadataIndex::get`'s `unwrap` on a dangling dependency target. -/
def entryEnvVars (idx : MetadataIndex) (e : MetadataIndexEntry) :
    Option (List (String × String)) :=
  let pid := mk_package_id e.package.name e.package.version e.package.manifest_path
  let builtinVars :=
    (if e.verus_metadata.is_builtin then [("__VERUS_DRIVER_IS_BUILTIN_" ++ pid, "1")] else []) ++
    (if e.verus_metadata.is_builtin_macros then
      [("__VERUS_DRIVER_IS_BUILTIN_MACROS_" ++ pid, "1")] else [])
  if e.verus_metadata.verify then
    match verus_driver_args_for_package idx e with
    | none => none
    | some argsForPackage =>
      some (builtinVars ++ [("__VERUS_DRIVER_VERIFY_" ++ pid, "1")] ++
        (if argsForPackage.isEmpty then []
         else [("__VERUS_DRIVER_ARGS_FOR_" ++ pid,
                pack_verus_driver_args_for_env argsForPackage)]))
  else some builtinVars

/-- The name of the per-package instruction-list environment variable. -/
def argsForVarName (pid : String) : String :=
  "__VERUS_DRIVER_ARGS_FOR_" ++ pid

/-- All per-package environment contributions, over the index's entries in
order. -/
def packageEnvVars (idx : MetadataIndex) : Option (List (String × String)) :=
  ((idx.entryValues.mapM (entryEnvVars idx)).map List.flatten)

/-- The assembled child command: program, arguments, and environment
assignments in the order they are set. -/
structure CmdSpec where
  program : String
  args : List String
  envs : List (String × String)
deriving DecidableEq, Repr

/-- `VerusCmd::into_std_cmd` as a pure function of the command, the driver
path, the probe outcome and the (externally queried) metadata.  The
`checked_verus_driver_path` gate runs before the common-args packing and the
metadata indexing; its error propagates out (`?`), so no command value is
produced.  The `CARGO` environment override is elided: the program is the
literal `cargo`. -/
def VerusCmd.into_std_cmd (c : VerusCmd) (driverPath : String) (probe : ProbeOutcome)
    (m : Metadata) : Except String CmdSpec :=
  match checked_verus_driver_path probe with
  | .error e => .error e
  | .ok _ =>
    let packed := pack_verus_driver_args_for_env c.common_verus_driver_args
    let baseEnvs :=
      [("RUSTC_WRAPPER", driverPath), ("__VERUS_DRIVER_VIA_CARGO__", "1"),
       ("__CARGO_DEFAULT_LIB_METADATA", "verus")] ++
      (if packed = "" then [] else [("__VERUS_DRIVER_ARGS__", packed)])
    match MetadataIndex.new m with
    | .error e => .error e
    | .ok idx =>
      match packageEnvVars idx with
      | none => .error "panic: MetadataIndex::get unwrap on missing package id"
      | some perPackage =>
        .ok { program := "cargo",
              args := c.cargo_subcommand.toArg :: c.cargo_args,
              envs := baseEnvs ++ perPackage }

/-! ## Concrete instances (used by witnesses and counterexamples) -/

/-- A fallback package for total extraction helpers. -/
def emptyPackage : Package :=
  { id := "", name := "", version := "", manifest_path := "", metadata := .null }

/-- A fallback index entry for total extraction helpers. -/
def emptyEntry : MetadataIndexEntry :=
  { package := emptyPackage, verus_metadata := VerusMetadata.default, deps := [] }

/-- Package `a`: a verification target with `is-core`, depending on `b` and `c`. -/
def pkgA : Package :=
  { id := "idA", name := "a", version := "0.1.0", manifest_path := "/w/a/Cargo.toml",
    metadata := .obj [("verus", .obj [("verify", .bool true), ("is-core", .bool true)])] }

/-- Package `b`: a verification target. -/
def pkgB : Package :=
  { id := "idB", name := "b", version := "0.1.0", manifest_path := "/w/b/Cargo.toml",
    metadata := .obj [("verus", .obj [("verify", .bool true)])] }

/-- Package `c`: not a verification target (no metadata at all). -/
def pkgC : Package :=
  { id := "idC", name := "c", version := "0.1.0", manifest_path := "/w/c/Cargo.toml",
    metadata := .null }

/-- A well-formed three-package graph: `a` depends on `b` (verified) and `c`
(unverified). -/
def mGood : Metadata :=
  { packages := [pkgA, pkgB, pkgC],
    resolve := some { nodes :=
      [ { id := "idA", deps := [ { name := "b", pkg := "idB" }, { name := "c", pkg := "idC" } ] },
        { id := "idB", deps := [] },
        { id := "idC", deps := [] } ] } }

/-- The index built from `mGood` (total extraction; `MetadataIndex.new mGood`
does succeed). -/
def idxGood : MetadataIndex :=
  match MetadataIndex.new mGood with
  | .ok idx => idx
  | .error _ => { entries := [] }

/-- The entry of package `a` in `idxGood`. -/
def entryA : MetadataIndexEntry :=
  (idxGood.get "idA").getD emptyEntry

/-- The entry of package `b` in `idxGood`. -/
def entryB : MetadataIndexEntry :=
  (idxGood.get "idB").getD emptyEntry

/-- The entry of package `c` in `idxGood`. -/
def entryC : MetadataIndexEntry :=
  (idxGood.get "idC").getD emptyEntry

/-- The environment contribution of `entryA` (total extraction). -/
def envsA : List (String × String) :=
  (entryEnvVars idxGood entryA).getD []

/-- A graph whose single dependency edge targets a package id (`idMissing`)
absent from the package list: the resolve node list and the package list agree,
so `MetadataIndex::new` does not reject it. -/
def mDangling : Metadata :=
  { packages := [pkgA],
    resolve := some { nodes :=
      [ { id := "idA", deps := [ { name := "ghost", pkg := "idMissing" } ] } ] } }

/-- The index built from `mDangling` (total extraction; construction succeeds). -/
def idxDangling : MetadataIndex :=
  match MetadataIndex.new mDangling with
  | .ok idx => idx
  | .error _ => { entries := [] }

/-- A graph in which one package appears twice in the package list. -/
def mDupPkg : Metadata :=
  { packages := [pkgC, pkgC],
    resolve := some { nodes := [ { id := "idC", deps := [] } ] } }

/-- A graph whose node list and package list disagree (an extra node). -/
def mMismatch : Metadata :=
  { packages := [pkgC],
    resolve := some { nodes :=
      [ { id := "idC", deps := [] }, { id := "idZ", deps := [] } ] } }

/-- A graph in which one node declares two dependencies under the same name. -/
def mDupDep : Metadata :=
  { packages := [pkgC],
    resolve := some { nodes :=
      [ { id := "idC", deps :=
          [ { name := "x", pkg := "idC" }, { name := "x", pkg := "idC" } ] } ] } }

/-- A package with no `verus` metadata key (but a nonempty metadata object). -/
def pkgNoVerus : Package :=
  { id := "idN", name := "n", version := "2.0.0", manifest_path := "/n/Cargo.toml",
    metadata := .obj [("other", .str "tool")] }

/-- A package whose `verus` metadata is the empty object. -/
def pkgEmptyVerus : Package :=
  { id := "idE", name := "e", version := "0.3.1", manifest_path := "/e/Cargo.toml",
    metadata := .obj [("verus", .obj [])] }

/-- A package whose `verus` metadata fails structural deserialization (a string
where a map is expected). -/
def pkgBadVerus : Package :=
  { id := "idX", name := "x", version := "1.2.3", manifest_path := "/x/Cargo.toml",
    metadata := .obj [("verus", .str "yes")] }

/-- The instruction list whose packing/unpacking round trip is exercised by the
packing witness. -/
def wArgs : List String :=
  ["--verus-arg=--is-core", "--verus-driver-arg=--import-dep-if-present=foo"]

/-- The instruction list refuting the stated round-trip condition: neither
instruction contains the separator token, yet the first one ends with a
23-character prefix of it, so in the packed string an occurrence of the
separator straddles the boundary between the first instruction and the
separator that introduces the second. -/
def cexArgs : List String :=
  ["x__VERUS_DRIVER_ARGS_SEP", "y"]

/-- Sortedness of an association list by strictly increasing key (the invariant
of every `BTreeMap` model in this development). -/
abbrev keySorted {α : Type} (m : List (String × α)) : Prop :=
  List.Pairwise (fun a b => a.1 < b.1) m

/-- Well-formedness of a resolved graph: the resolve section is present, no
node declares two dependencies under one name, node ids are distinct, the node
ids are exactly the package ids, and every package's tool metadata parses. -/
abbrev WFMetadata (m : Metadata) : Prop :=
  m.resolve.isSome = true ∧
  (∀ n ∈ resolveNodes m, (n.deps.map NodeDep.name).Nodup) ∧
  (nodeIds m).Nodup ∧
  List.Perm (nodeIds m) (packageIds m) ∧
  (∀ p ∈ m.packages, (VerusMetadata.parse_from_package p).isOk = true)

/-! # Theorems

From here on, only lemmas and theorems: first the generic association-map
lemmas, then the packing/splitting theory, then the per-component claims. -/

theorem insertNew_some_perm {α : Type} {k : String} {v : α}
    {m m' : List (String × α)} (h : insertNew k v m = some m') :
    List.Perm m' ((k, v) :: m) := by
  induction m generalizing m' with
  | nil =>
    simp only [insertNew, Option.some.injEq] at h
    subst h
    exact List.Perm.refl _
  | cons kv rest ih =>
    obtain ⟨k', v'⟩ := kv
    simp only [insertNew] at h
    split at h
    · rw [Option.some.injEq] at h
      subst h
      exact List.Perm.refl _
    · split at h
      · exact absurd h (by simp)
      · rw [Option.map_eq_some'] at h
        obtain ⟨m₀, hm₀, hm'⟩ := h
        subst hm'
        exact ((ih hm₀).cons (k', v')).trans (List.Perm.swap (k, v) (k', v') rest)

theorem insertNew_sorted {α : Type} {k : String} {v : α}
    {m m' : List (String × α)} (hs : keySorted m) (h : insertNew k v m = some m') :
    keySorted m' := by
  induction m generalizing m' with
  | nil =>
    simp only [insertNew, Option.some.injEq] at h
    subst h
    simp [keySorted]
  | cons kv rest ih =>
    obtain ⟨k', v'⟩ := kv
    obtain ⟨hk', hrest⟩ := List.pairwise_cons.mp hs
    simp only [insertNew] at h
    split at h
    · rename_i h1
      have h1' : k < k' := String.lt_iff_toList_lt.mpr h1
      rw [Option.some.injEq] at h
      subst h
      refine List.Pairwise.cons ?_ hs
      intro b hb
      rcases List.mem_cons.mp hb with hb | hb
      · simpa [hb] using h1'
      · exact lt_trans h1' (hk' b hb)
    · split at h
      · exact absurd h (by simp)
      · rename_i h1 h2
        have h1' : ¬k < k' := fun hc => h1 (String.lt_iff_toList_lt.mp hc)
        rw [Option.map_eq_some'] at h
        obtain ⟨m₀, hm₀, hm'⟩ := h
        subst hm'
        refine List.Pairwise.cons ?_ (ih hrest hm₀)
        intro b hb
        have hb' : b ∈ (k, v) :: rest := (insertNew_some_perm hm₀).mem_iff.mp hb
        rcases List.mem_cons.mp hb' with hb' | hb'
        · have hlt : k' < k := lt_of_le_of_ne (not_lt.mp h1') (Ne.symm h2)
          simpa [hb'] using hlt
        · exact hk' b hb'

theorem keySorted_keys_nodup {α : Type} {m : List (String × α)} (hs : keySorted m) :
    (m.map Prod.fst).Nodup :=
  List.pairwise_map.mpr (hs.imp (fun hlt => ne_of_lt hlt))

theorem insertNew_isSome_of_notMem {α : Type} (k : String) (v : α)
    {m : List (String × α)} (h : k ∉ m.map Prod.fst) :
    (insertNew k v m).isSome = true := by
  induction m with
  | nil => simp [insertNew]
  | cons kv rest ih =>
    obtain ⟨k', v'⟩ := kv
    simp only [List.map_cons, List.mem_cons, not_or] at h
    obtain ⟨hne, hrest⟩ := h
    simp only [insertNew]
    split
    · simp
    · simpa [Option.isSome_map'] using ih hrest

theorem lookupA_isSome_iff {α : Type} {k : String} {m : List (String × α)} :
    (lookupA k m).isSome = true ↔ k ∈ m.map Prod.fst := by
  induction m with
  | nil => simp [lookupA]
  | cons kv rest ih =>
    obtain ⟨k', v'⟩ := kv
    simp only [lookupA, List.map_cons, List.mem_cons]
    by_cases h : k = k'
    · simp [h]
    · simp [h, ih]

theorem lookupA_mem {α : Type} {k : String} {v : α} {m : List (String × α)}
    (h : lookupA k m = some v) : (k, v) ∈ m := by
  induction m with
  | nil => simp [lookupA] at h
  | cons kv rest ih =>
    obtain ⟨k', v'⟩ := kv
    simp only [lookupA] at h
    by_cases hk : k = k'
    · rw [if_pos hk, Option.some.injEq] at h
      subst hk; subst h
      exact List.mem_cons_self _ _
    · rw [if_neg hk] at h
      exact List.mem_cons_of_mem _ (ih h)

theorem removeA_some_perm {α : Type} {k : String} {v : α}
    {m m' : List (String × α)} (h : removeA k m = some (v, m')) :
    List.Perm m ((k, v) :: m') := by
  induction m generalizing m' with
  | nil => simp [removeA] at h
  | cons kv rest ih =>
    obtain ⟨k', v'⟩ := kv
    simp only [removeA] at h
    split at h
    · rename_i hk
      simp only [Option.some.injEq, Prod.mk.injEq] at h
      obtain ⟨hv, hm⟩ := h
      subst hk; subst hv; subst hm
      exact List.Perm.refl _
    · rw [Option.map_eq_some'] at h
      obtain ⟨⟨v₀, m₀⟩, hrec, heq⟩ := h
      simp only [Prod.mk.injEq] at heq
      obtain ⟨hv, hm⟩ := heq
      subst hv
      subst hm
      exact ((ih hrec).cons (k', v')).trans (List.Perm.swap (k, v₀) (k', v') m₀)

theorem removeA_isSome_of_mem {α : Type} {k : String} {m : List (String × α)}
    (h : k ∈ m.map Prod.fst) : (removeA k m).isSome = true := by
  induction m with
  | nil => simp at h
  | cons kv rest ih =>
    obtain ⟨k', v'⟩ := kv
    simp only [List.map_cons, List.mem_cons] at h
    simp only [removeA]
    split
    · simp
    · rename_i hk
      rcases h with h | h
      · exact absurd h hk
      · simpa [Option.isSome_map'] using ih h

/-! ## Splitting and packing theory (claim C4) -/

theorem splitAux_nil (sep : List Char) (f : Nat) (acc : List Char) :
    splitAux sep f [] acc = [acc.reverse] := by
  cases f <;> rfl

theorem splitAux_cons (sep : List Char) (f : Nat) (c : Char) (cs acc : List Char) :
    splitAux sep (f + 1) (c :: cs) acc =
      if sep.isPrefixOf (c :: cs) then
        acc.reverse :: splitAux sep f (List.drop sep.length (c :: cs)) []
      else splitAux sep f cs (c :: acc) := rfl

theorem isPrefixOf_append_of_le {p x : List Char} (y : List Char) (h : p.length ≤ x.length) :
    p.isPrefixOf (x ++ y) = p.isPrefixOf x := by
  by_cases hx : p <+: x
  · have h1 : p.isPrefixOf x = true := List.isPrefixOf_iff_prefix.mpr hx
    have h2 : p.isPrefixOf (x ++ y) = true :=
      List.isPrefixOf_iff_prefix.mpr (hx.trans (List.prefix_append x y))
    rw [h1, h2]
  · have h1 : p.isPrefixOf x = false :=
      Bool.eq_false_iff.mpr (fun hc => hx (List.isPrefixOf_iff_prefix.mp hc))
    have h2 : p.isPrefixOf (x ++ y) = false := by
      refine Bool.eq_false_iff.mpr (fun hc => hx ?_)
      have hpre : p <+: x ++ y := List.isPrefixOf_iff_prefix.mp hc
      rw [List.prefix_iff_eq_take] at hpre
      rw [List.take_append_of_le_length h] at hpre
      rw [List.prefix_iff_eq_take]
      exact hpre
    rw [h1, h2]

theorem splitAux_fuel {sep : List Char} (hsep : 0 < sep.length) :
    ∀ (f f' : Nat) (s acc : List Char), s.length ≤ f → s.length ≤ f' →
      splitAux sep f s acc = splitAux sep f' s acc := by
  intro f
  induction f with
  | zero =>
    intro f' s acc hf _
    have : s = [] := List.eq_nil_of_length_eq_zero (Nat.le_zero.mp hf)
    subst this
    rw [splitAux_nil, splitAux_nil]
  | succ f ih =>
    intro f' s acc hf hf'
    cases s with
    | nil => rw [splitAux_nil, splitAux_nil]
    | cons c cs =>
      cases f' with
      | zero => simp at hf'
      | succ f'' =>
        rw [splitAux_cons, splitAux_cons]
        by_cases hp : sep.isPrefixOf (c :: cs) = true
        · rw [if_pos hp, if_pos hp]
          have hc1 : cs.length + 1 ≤ f + 1 := by simpa using hf
          have hc2 : cs.length + 1 ≤ f'' + 1 := by simpa using hf'
          have hlen1 : (List.drop sep.length (c :: cs)).length ≤ f := by
            simp only [List.length_drop, List.length_cons]
            omega
          have hlen2 : (List.drop sep.length (c :: cs)).length ≤ f'' := by
            simp only [List.length_drop, List.length_cons]
            omega
          rw [ih f'' _ _ hlen1 hlen2]
        · rw [if_neg hp, if_neg hp]
          have h1 : cs.length ≤ f := by simpa using Nat.le_of_succ_le_succ hf
          have h2 : cs.length ≤ f'' := by simpa using Nat.le_of_succ_le_succ hf'
          rw [ih f'' _ _ h1 h2]

theorem splitAux_piece {sep : List Char} (hsep : 0 < sep.length) :
    ∀ (a r acc : List Char) (f : Nat), a.length + sep.length + r.length ≤ f →
      (∀ i, i < a.length → sep.isPrefixOf ((a ++ sep).drop i) = false) →
      splitAux sep f (a ++ (sep ++ r)) acc =
        (acc.reverse ++ a) :: splitAux sep (f - (a.length + sep.length)) r [] := by
  intro a
  induction a with
  | nil =>
    intro r acc f hf _
    simp only [List.nil_append, List.length_nil, Nat.zero_add, List.append_nil]
    cases hseq : sep with
    | nil => rw [hseq] at hsep; simp at hsep
    | cons s0 stail =>
      subst hseq
      cases f with
      | zero => simp at hf
      | succ f0 =>
        rw [List.cons_append, splitAux_cons]
        have hp : (s0 :: stail).isPrefixOf (s0 :: (stail ++ r)) = true := by
          rw [← List.cons_append]
          exact List.isPrefixOf_iff_prefix.mpr (List.prefix_append _ r)
        rw [if_pos hp]
        rw [← List.cons_append, List.drop_left]
        have hr1 : r.length ≤ f0 := by simp at hf; omega
        have hr2 : r.length ≤ f0 + 1 - (s0 :: stail).length := by simp at hf ⊢; omega
        rw [splitAux_fuel hsep f0 (f0 + 1 - (s0 :: stail).length) r [] hr1 hr2]
  | cons c a' ih =>
    intro r acc f hf hbc
    cases f with
    | zero => simp at hf
    | succ f0 =>
      rw [List.cons_append, splitAux_cons]
      have hp : sep.isPrefixOf (c :: (a' ++ (sep ++ r))) = false := by
        have h0 := hbc 0 (by simp)
        simp only [List.drop_zero] at h0
        have hshape : c :: (a' ++ (sep ++ r)) = ((c :: a') ++ sep) ++ r := by simp
        rw [hshape, isPrefixOf_append_of_le r (by simp; omega)]
        exact h0
      rw [if_neg (by simp [hp])]
      have hbc' : ∀ i, i < a'.length → sep.isPrefixOf ((a' ++ sep).drop i) = false := by
        intro i hi
        have hstep := hbc (i + 1) (by simp; omega)
        simpa using hstep
      have hf' : a'.length + sep.length + r.length ≤ f0 := by simp at hf; omega
      rw [ih r (c :: acc) f0 hf' hbc']
      have harith : f0 - (a'.length + sep.length) =
          f0 + 1 - ((c :: a').length + sep.length) := by simp; omega
      rw [harith]
      simp

theorem splitAux_last (sep : List Char) :
    ∀ (a acc : List Char) (f : Nat), a.length ≤ f →
      (∀ i, i < a.length → sep.isPrefixOf (a.drop i) = false) →
      splitAux sep f a acc = [acc.reverse ++ a] := by
  intro a
  induction a with
  | nil =>
    intro acc f _ _
    rw [splitAux_nil]
    simp
  | cons c a' ih =>
    intro acc f hf hbc
    cases f with
    | zero => simp at hf
    | succ f0 =>
      rw [splitAux_cons]
      have hp := hbc 0 (by simp)
      simp only [List.drop_zero] at hp
      rw [if_neg (by simp [hp])]
      rw [ih (c :: acc) f0 (by simp at hf; omega) (fun i hi => by
        have := hbc (i + 1) (by simp; omega)
        simpa using this)]
      simp

theorem bc_inner {sep a : List Char}
    (h : ∀ i, i < a.length → sep.isPrefixOf ((a ++ sep).drop i) = false) :
    ∀ i, i < a.length → sep.isPrefixOf (a.drop i) = false := by
  intro i hi
  refine Bool.eq_false_iff.mpr (fun hc => ?_)
  have hpre : sep <+: a.drop i := List.isPrefixOf_iff_prefix.mp hc
  have h2 : sep <+: (a ++ sep).drop i := by
    rw [List.drop_append_of_le_length (le_of_lt hi)]
    exact hpre.trans (List.prefix_append _ _)
  have hfalse := h i hi
  rw [List.isPrefixOf_iff_prefix.mpr h2] at hfalse
  exact Bool.true_eq_false.mp hfalse

theorem boundaryClean_iff {sep a : List Char} :
    boundaryClean sep a = true ↔
      ∀ i, i < a.length → sep.isPrefixOf ((a ++ sep).drop i) = false := by
  unfold boundaryClean
  rw [List.all_eq_true]
  constructor
  · intro h i hi
    have := h i (List.mem_range.mpr hi)
    simpa using this
  · intro h i hi
    have := h i (List.mem_range.mp hi)
    simpa using this

theorem packL_cons (sep b : List Char) (rest : List (List Char)) :
    packL sep (b :: rest) = sep ++ (b ++ packL sep rest) := by
  simp [packL]

theorem splitAux_packTail {sep : List Char} (hsep : 0 < sep.length) :
    ∀ (args : List (List Char)) (a : List Char) (f : Nat),
      a.length + (packL sep args).length ≤ f →
      (∀ i, i < a.length → sep.isPrefixOf ((a ++ sep).drop i) = false) →
      (∀ x ∈ args, ∀ i, i < x.length → sep.isPrefixOf ((x ++ sep).drop i) = false) →
      splitAux sep f (a ++ packL sep args) [] = a :: args := by
  intro args
  induction args with
  | nil =>
    intro a f hf hbca _
    simp only [packL, List.map_nil, List.flatten_nil, List.append_nil] at hf ⊢
    rw [splitAux_last sep a [] f hf (bc_inner hbca)]
    simp
  | cons b rest ih =>
    intro a f hf hbca hbcall
    rw [packL_cons] at hf ⊢
    simp only [List.length_append] at hf
    cases f with
    | zero => omega
    | succ f0 =>
      rw [splitAux_piece hsep a (b ++ packL sep rest) [] (f0 + 1) (by simp only [List.length_append]; omega) hbca]
      simp only [List.reverse_nil, List.nil_append]
      rw [ih b (f0 + 1 - (a.length + sep.length)) (by omega)
        (hbcall b (List.mem_cons_self b rest))
        (fun x hx => hbcall x (List.mem_cons_of_mem b hx))]

theorem splitOnL_packL {sep : List Char} (hsep : 0 < sep.length)
    (args : List (List Char))
    (h : ∀ x ∈ args, ∀ i, i < x.length → sep.isPrefixOf ((x ++ sep).drop i) = false) :
    (splitOnL sep (packL sep args)).drop 1 = args := by
  cases args with
  | nil => rfl
  | cons b rest =>
    unfold splitOnL
    rw [packL_cons]
    have hempty : ∀ i, i < ([] : List Char).length →
        sep.isPrefixOf (([] ++ sep).drop i) = false := by
      intro i hi
      simp at hi
    have hstep := splitAux_piece hsep [] (b ++ packL sep rest)
      [] (sep ++ (b ++ packL sep rest)).length (by simp) hempty
    simp only [List.nil_append] at hstep
    rw [hstep]
    simp only [List.reverse_nil, List.nil_append, List.drop_succ_cons, List.drop_zero]
    rw [splitAux_packTail hsep rest b _ (by simp only [List.length_append, List.length_nil]; omega)
      (h b (List.mem_cons_self b rest))
      (fun x hx => h x (List.mem_cons_of_mem b hx))]

theorem string_data_append (s t : String) : (s ++ t).data = s.data ++ t.data := rfl

theorem foldl_append_data (l : List String) :
    ∀ s : String, (l.foldl (fun r t => r ++ t) s).data = s.data ++ (l.map String.data).flatten := by
  induction l with
  | nil => intro s; simp
  | cons a l ih =>
    intro s
    simp only [List.foldl_cons, ih, List.map_cons, List.flatten_cons, string_data_append,
      List.append_assoc]

theorem join_data (l : List String) : (String.join l).data = (l.map String.data).flatten := by
  have := foldl_append_data l ""
  simpa [String.join] using this

theorem flatten_sep_pairs (args : List String) :
    (((args.map (fun a => [SEP, a])).flatten.map String.data)).flatten =
      packL SEP.data (args.map String.data) := by
  induction args with
  | nil => rfl
  | cons a t ih =>
    simp only [List.map_cons, List.flatten_cons, List.map_append, List.flatten_append, ih,
      packL_cons]
    simp

theorem pack_data (args : List String) :
    (pack_verus_driver_args_for_env args).data = packL SEP.data (args.map String.data) := by
  unfold pack_verus_driver_args_for_env
  rw [join_data, flatten_sep_pairs]

theorem stringDataInj {s t : String} (h : s.data = t.data) : s = t := by
  cases s
  cases t
  exact congrArg String.mk h

theorem pack_eq_specPacked (args : List String) :
    pack_verus_driver_args_for_env args = specPacked args := by
  apply stringDataInj
  rw [pack_data]
  unfold specPacked
  rw [join_data]
  induction args with
  | nil => rfl
  | cons a t ih =>
    simp only [List.map_cons, List.flatten_cons, packL_cons, string_data_append, ih,
      List.append_assoc]

/-- C4 (amended): packing an instruction list produces the concatenation of the
separator token `__VERUS_DRIVER_ARGS_SEP__` prefixed onto each instruction in
order (so the empty list packs to the empty string), and unpacking by splitting
on the separator token round-trips to the original ordered list for every
instruction list in which, for each instruction, the separator occurs in
`instruction ++ separator` only as its trailing copy — i.e. every instruction
is boundary-clean.  (Mere absence of the separator inside each instruction is
not enough, see the counterexample.) -/
theorem C4_pack_roundtrip (args : List String)
    (h : ∀ a ∈ args, boundaryClean SEP.data a.data = true) :
    pack_verus_driver_args_for_env args = specPacked args ∧
    pack_verus_driver_args_for_env [] = "" ∧
    unpack_verus_driver_args (pack_verus_driver_args_for_env args) = args := by
  refine ⟨pack_eq_specPacked args, rfl, ?_⟩
  unfold unpack_verus_driver_args
  rw [pack_data]
  rw [splitOnL_packL (by decide) (args.map String.data) ?hbc]
  case hbc =>
    intro x hx i hi
    obtain ⟨a, ha, hax⟩ := List.mem_map.mp hx
    subst hax
    exact (boundaryClean_iff.mp (h a ha)) i hi
  rw [List.map_map]
  have hid : (String.mk ∘ String.data) = id := funext (fun s => rfl)
  rw [hid, List.map_id]

/-- C4 counterexample: the list `["x__VERUS_DRIVER_ARGS_SEP", "y"]` contains no
instruction with the separator token as a substring, yet packing it and
splitting the result on the separator token yields `["x",
"VERUS_DRIVER_ARGS_SEP__y"]`: an occurrence of the separator straddles the
boundary between the first instruction and the following separator. -/
theorem C4_claim_counterexample :
    (cexArgs.all (fun a => !(hasInfixTok SEP.data a.data))) = true ∧
    unpack_verus_driver_args (pack_verus_driver_args_for_env cexArgs) ≠ cexArgs := by
  constructor
  · decide
  · decide

/-- C4 witness: the amended round trip at a concrete two-instruction list. -/
theorem C4_pack_roundtrip_witness :
    (wArgs.all (fun a => boundaryClean SEP.data a.data)) = true ∧
    unpack_verus_driver_args (pack_verus_driver_args_for_env wArgs) = wArgs :=
  ⟨by decide, (C4_pack_roundtrip wArgs (by decide)).2.2⟩

/-! ## Global instructions (claim C8) -/

theorem newLoop_spec (args : List String) :
    ∀ (sub : CargoSubcommand) (ca : List String) (jv : Bool),
      (newLoop args sub ca jv).2.2.1 = (jv || specJustVerify args) ∧
      (newLoop args sub ca jv).2.2.2 = specPassthrough args := by
  induction args with
  | nil =>
    intro sub ca jv
    simp [newLoop, specJustVerify, specPassthrough]
  | cons a rest ih =>
    intro sub ca jv
    by_cases hc : a = "--check"
    · subst hc
      simp [newLoop, specJustVerify, specPassthrough, List.takeWhile_cons,
        List.dropWhile_cons, (ih CargoSubcommand.check ca jv).1,
        (ih CargoSubcommand.check ca jv).2]
    · by_cases hj : a = "--just-verify"
      · subst hj
        simp [newLoop, specJustVerify, specPassthrough, List.takeWhile_cons,
          List.dropWhile_cons, (ih sub ca true).1, (ih sub ca true).2]
      · by_cases hd : a = "--"
        · subst hd
          simp [newLoop, specJustVerify, specPassthrough, List.takeWhile_cons,
            List.dropWhile_cons]
        · have hj2 : ¬"--just-verify" = a := fun h => hj h.symm
          simp [newLoop, specJustVerify, specPassthrough, List.takeWhile_cons,
            List.dropWhile_cons, hc, hj, hd, hj2, (ih sub (ca ++ [a]) jv).1,
            (ih sub (ca ++ [a]) jv).2]

/-- C8: the common (global) driver instruction list always starts with the
compile-when-not-primary-package instruction; the
compile-when-primary-package instruction is emitted exactly when
`--just-verify` was not given before `--`; everything after `--` follows.
In particular the list always contains the former and, when the flag was not
given, contains the latter. -/
theorem C8_global_instructions (args : List String) :
    (VerusCmd.new args).common_verus_driver_args =
      ["--verus-driver-arg=--compile-when-not-primary-package"] ++
      (if specJustVerify args then []
       else ["--verus-driver-arg=--compile-when-primary-package"]) ++
      specPassthrough args ∧
    "--verus-driver-arg=--compile-when-not-primary-package" ∈
      (VerusCmd.new args).common_verus_driver_args ∧
    (specJustVerify args = false →
      "--verus-driver-arg=--compile-when-primary-package" ∈
        (VerusCmd.new args).common_verus_driver_args) := by
  have hspec := newLoop_spec args CargoSubcommand.build [] false
  rcases hkey : newLoop args CargoSubcommand.build [] false with ⟨sub, ca, jv, rest⟩
  rw [hkey] at hspec
  simp only [Bool.false_or] at hspec
  obtain ⟨hjv, hrest⟩ := hspec
  have hcommon : (VerusCmd.new args).common_verus_driver_args =
      ["--verus-driver-arg=--compile-when-not-primary-package"] ++
      (if specJustVerify args then []
       else ["--verus-driver-arg=--compile-when-primary-package"]) ++
      specPassthrough args := by
    unfold VerusCmd.new
    rw [hkey]
    rw [← hjv, ← hrest]
  refine ⟨hcommon, ?_, ?_⟩
  · rw [hcommon]
    exact List.mem_append_left _ (List.mem_append_left _ (List.mem_cons_self _ _))
  · intro hfalse
    rw [hcommon, hfalse]
    simp

/-- C8 witness: with `--just-verify` the primary-package instruction is
omitted and the post-`--` arguments follow; without it the primary-package
instruction is present. -/
theorem C8_global_instructions_witness :
    (VerusCmd.new ["--just-verify", "--", "extra"]).common_verus_driver_args =
      ["--verus-driver-arg=--compile-when-not-primary-package"] ++
      (if specJustVerify ["--just-verify", "--", "extra"] then []
       else ["--verus-driver-arg=--compile-when-primary-package"]) ++
      specPassthrough ["--just-verify", "--", "extra"] ∧
    "--verus-driver-arg=--compile-when-primary-package" ∈
      (VerusCmd.new ["--check"]).common_verus_driver_args :=
  ⟨(C8_global_instructions ["--just-verify", "--", "extra"]).1,
   (C8_global_instructions ["--check"]).2.2 (by decide)⟩

/-! ## Cargo argument filtering (claim C10) -/

/-- C10 (code-bug evidence): `filter_args` with the flag lists used by
`VerusCmd::metadata` drops `--manifest-path=<value>` and `-Z=<value>` (their
`<flag>=<value>` forms are never tested because the `for` loop over
`flags_with_values` breaks unconditionally after its first iteration), while
it does keep `--config=<value>`, every standalone flag, and every
flag-with-value followed by its value, and errors when a flag-with-values ends
the argument list. -/
theorem C10_filter_args_behavior :
    filter_args ["--manifest-path=/tmp/Cargo.toml"] metadataStandaloneFlags
      metadataFlagsWithValues = .ok [] ∧
    filter_args ["-Z=unstable"] metadataStandaloneFlags metadataFlagsWithValues = .ok [] ∧
    filter_args ["--config=x"] metadataStandaloneFlags metadataFlagsWithValues =
      .ok ["--config=x"] ∧
    filter_args ["--frozen", "--locked", "--offline"] metadataStandaloneFlags
      metadataFlagsWithValues = .ok ["--frozen", "--locked", "--offline"] ∧
    filter_args ["--manifest-path", "/p", "junk"] metadataStandaloneFlags
      metadataFlagsWithValues = .ok ["--manifest-path", "/p"] ∧
    filter_args ["--manifest-path"] metadataStandaloneFlags metadataFlagsWithValues =
      .error "Expected --manifest-path to be followed by a value" := by
  refine ⟨?_, ?_, ?_, ?_, ?_, ?_⟩ <;> rfl

/-! ## Tool metadata extraction (claim C6) -/

/-- C6: when the metadata block has no `verus` sub-object the extraction
returns the all-defaults record (in particular for a metadata block with zero
recognized fields), and it never errors in that case; when the `verus` value is
present the empty object also yields the all-defaults record; when structural
deserialization of the present value fails, the extraction fails with the
diagnostic naming the offending package's name and version. -/
theorem C6_parse_from_package (p : Package) :
    (verusValue p = none →
      VerusMetadata.parse_from_package p = .ok VerusMetadata.default) ∧
    (verusValue p = some (.obj []) →
      VerusMetadata.parse_from_package p = .ok VerusMetadata.default) ∧
    (∀ v e, verusValue p = some v → deserializeVerusMetadata v = .error e →
      VerusMetadata.parse_from_package p =
        .error ("Failed to parse " ++ p.name ++ "-" ++ p.version ++
          ".metadata.verus: " ++ e)) := by
  refine ⟨?_, ?_, ?_⟩
  · intro h
    unfold VerusMetadata.parse_from_package
    rw [h]
  · intro h
    unfold VerusMetadata.parse_from_package
    rw [h]
    rfl
  · intro v e hv he
    have hred : VerusMetadata.parse_from_package p =
        match deserializeVerusMetadata v with
        | .ok vm => .ok vm
        | .error e2 =>
          .error ("Failed to parse " ++ p.name ++ "-" ++ p.version ++
            ".metadata.verus: " ++ e2) := by
      unfold VerusMetadata.parse_from_package
      rw [hv]
    rw [hred, he]

/-- C6 witness: a metadata object without the `verus` key, an empty `verus`
object, and a `verus` value of the wrong shape, each at a concrete package. -/
theorem C6_parse_from_package_witness :
    VerusMetadata.parse_from_package pkgNoVerus = .ok VerusMetadata.default ∧
    VerusMetadata.parse_from_package pkgEmptyVerus = .ok VerusMetadata.default ∧
    VerusMetadata.parse_from_package pkgBadVerus =
      .error ("Failed to parse " ++ "x" ++ "-" ++ "1.2.3" ++ ".metadata.verus: " ++
        "invalid type: expected a map") :=
  ⟨(C6_parse_from_package pkgNoVerus).1 rfl,
   (C6_parse_from_package pkgEmptyVerus).2.1 rfl,
   (C6_parse_from_package pkgBadVerus).2.2 (.str "yes") "invalid type: expected a map" rfl rfl⟩

/-! ## Version gate (claim C5) -/

theorem parse_output_eq_some_iff (stdout : String) (v : SemVer) :
    parse_verus_driver_version_output stdout = some v ↔
      ∃ second rest, splitWs stdout = "verus-driver" :: second :: rest ∧
        SemVer.parse second = some v := by
  unfold parse_verus_driver_version_output
  cases hsw : splitWs stdout with
  | nil => simp
  | cons first rest =>
    cases rest with
    | nil =>
      by_cases hf : first = "verus-driver"
      · subst hf
        simp
      · simp [hf]
    | cons second rest2 =>
      by_cases hf : first = "verus-driver"
      · subst hf
        simp
      · simp [hf]

/-- C5: the driver version gate succeeds exactly when the probe ran
successfully and its output's first whitespace token is `verus-driver` and its
second token parses as a semantic version matching the exact requirement
`=0.1.0` (major 0, minor 1, patch 0, empty pre-release); on any gate error the
whole command construction returns that error, so no cargo child command is
produced. -/
theorem C5_version_gate (probe : ProbeOutcome) (c : VerusCmd) (driverPath : String)
    (m : Metadata) :
    (checked_verus_driver_path probe = .ok () ↔
      ∃ stdout first second rest, probe = .exited true (some stdout) ∧
        splitWs stdout = first :: second :: rest ∧
        first = "verus-driver" ∧
        ∃ v, SemVer.parse second = some v ∧
          v.major = 0 ∧ v.minor = 1 ∧ v.patch = 0 ∧ v.pre = "") ∧
    (∀ e, checked_verus_driver_path probe = .error e →
      VerusCmd.into_std_cmd c driverPath probe m = .error e) := by
  constructor
  · constructor
    · intro hok
      cases probe with
      | spawnFailed => simp [checked_verus_driver_path, get_verus_driver_version] at hok
      | exited success stdout =>
        cases success with
        | false => simp [checked_verus_driver_path, get_verus_driver_version] at hok
        | true =>
          cases stdout with
          | none => simp [checked_verus_driver_path, get_verus_driver_version] at hok
          | some out =>
            cases hp : parse_verus_driver_version_output out with
            | none =>
              simp only [checked_verus_driver_path, get_verus_driver_version, hp] at hok
              exact absurd hok (by simp)
            | some v =>
              simp only [checked_verus_driver_path, get_verus_driver_version, hp] at hok
              by_cases hm : versionReqMatches v = true
              · obtain ⟨second, rest, hsw, hparse⟩ := (parse_output_eq_some_iff out v).mp hp
                refine ⟨out, "verus-driver", second, rest, rfl, hsw, rfl, v, hparse, ?_⟩
                simp only [versionReqMatches, Bool.and_eq_true, decide_eq_true_eq] at hm
                exact ⟨hm.1.1.1, hm.1.1.2, hm.1.2, hm.2⟩
              · rw [if_neg hm] at hok
                simp at hok
    · intro hex
      obtain ⟨stdout, first, second, rest, hprobe, hsw, hf, v, hv, h0, h1, h2, h3⟩ := hex
      subst hprobe
      subst hf
      have hp : parse_verus_driver_version_output stdout = some v :=
        (parse_output_eq_some_iff stdout v).mpr ⟨second, rest, hsw, hv⟩
      simp only [checked_verus_driver_path, get_verus_driver_version, hp]
      have hm : versionReqMatches v = true := by
        simp [versionReqMatches, h0, h1, h2, h3]
      rw [if_pos hm]
  · intro e he
    unfold VerusCmd.into_std_cmd
    rw [he]

/-- C5 witness: the gate passes on `verus-driver 0.1.0` and, on a probe
reporting `verus-driver 0.2.0`, command construction fails with the version
mismatch error. -/
theorem C5_version_gate_witness :
    checked_verus_driver_path (.exited true (some "verus-driver 0.1.0")) = .ok () ∧
    VerusCmd.into_std_cmd (VerusCmd.new []) "verus-driver"
      (.exited true (some "verus-driver 0.2.0")) { packages := [], resolve := none } =
      .error "verus-driver version must match =0.1.0" :=
  ⟨(C5_version_gate (.exited true (some "verus-driver 0.1.0")) (VerusCmd.new [])
      "verus-driver" { packages := [], resolve := none }).1.mpr
    ⟨"verus-driver 0.1.0", "verus-driver", "0.1.0", [], rfl, rfl, rfl,
      { major := 0, minor := 1, patch := 0, pre := "", build := "" }, rfl,
      rfl, rfl, rfl, rfl⟩,
   (C5_version_gate (.exited true (some "verus-driver 0.2.0")) (VerusCmd.new [])
      "verus-driver" { packages := [], resolve := none }).2
    "verus-driver version must match =0.1.0" rfl⟩

/-! ## Canonical package id (claim C3) -/

set_option maxRecDepth 4000 in
theorem sha256_empty_vector :
    String.mk (hexEncode (sha256Bytes (strBytes ""))) =
      "e3b0c44298fc1c149afbf4c8996fb92427ae41e4649b934ca495991b7852b855" := by
  decide

set_option maxRecDepth 4000 in
theorem sha256_abc_vector :
    String.mk (hexEncode (sha256Bytes (strBytes "abc"))) =
      "ba7816bf8f01cfea414140de5dae2223b00361a396177a9cb410ff61f20015ad" := by
  decide

/-- C3: the canonical package id is exactly
`<name>-<version>-<first 12 hex characters of the SHA-256 digest of the
manifest path>`; it is a pure function of its three inputs (identical inputs
give syntactically identical results), and two inputs differing only in
manifest path yield different ids whenever their 12-character hash prefixes
differ. -/
theorem C3_mk_package_id (n v p p' : String)
    (hdiff : (manifestPathHash p).take 12 ≠ (manifestPathHash p').take 12) :
    mk_package_id n v p =
      n ++ "-" ++ v ++ "-" ++
        String.mk ((hexEncode (sha256Bytes (strBytes p))).take 12) ∧
    mk_package_id n v p = mk_package_id n v p ∧
    mk_package_id n v p ≠ mk_package_id n v p' := by
  refine ⟨rfl, rfl, ?_⟩
  intro heq
  apply hdiff
  have hd := congrArg String.data heq
  simp only [mk_package_id, string_data_append] at hd
  exact List.append_cancel_left hd

set_option maxRecDepth 4000 in
/-- C3 witness: two concrete manifest paths with different hash prefixes give
different canonical ids. -/
theorem C3_mk_package_id_witness :
    mk_package_id "a" "0.1.0" "/w/a/Cargo.toml" ≠
      mk_package_id "a" "0.1.0" "/w/b/Cargo.toml" :=
  (C3_mk_package_id "a" "0.1.0" "/w/a/Cargo.toml" "/w/b/Cargo.toml" (by decide)).2.2

/-! ## Index construction theory (claims C1, C2, C7, C9) -/

theorem bndAux_ok_perm {ds : List NodeDep} :
    ∀ {acc out : List (String × NodeDep)}, buildNodeDepsAux acc ds = .ok out →
      List.Perm out (acc ++ ds.map (fun d => (d.name, d))) := by
  induction ds with
  | nil =>
    intro acc out h
    simp only [buildNodeDepsAux, Except.ok.injEq] at h
    subst h
    simp
  | cons d ds ih =>
    intro acc out h
    simp only [buildNodeDepsAux] at h
    cases hin : insertNew d.name d acc with
    | none => rw [hin] at h; simp at h
    | some acc' =>
      rw [hin] at h
      have hperm := insertNew_some_perm hin
      exact (ih h).trans ((hperm.append_right _).trans List.perm_middle.symm)

theorem bndAux_ok_sorted {ds : List NodeDep} :
    ∀ {acc out : List (String × NodeDep)}, keySorted acc →
      buildNodeDepsAux acc ds = .ok out → keySorted out := by
  induction ds with
  | nil =>
    intro acc out hs h
    simp only [buildNodeDepsAux, Except.ok.injEq] at h
    subst h
    exact hs
  | cons d ds ih =>
    intro acc out hs h
    simp only [buildNodeDepsAux] at h
    cases hin : insertNew d.name d acc with
    | none => rw [hin] at h; simp at h
    | some acc' =>
      rw [hin] at h
      exact ih (insertNew_sorted hs hin) h

theorem bndAux_total {ds : List NodeDep} :
    ∀ {acc : List (String × NodeDep)},
      (acc.map Prod.fst ++ ds.map NodeDep.name).Nodup →
      ∃ out, buildNodeDepsAux acc ds = .ok out := by
  induction ds with
  | nil =>
    intro acc _
    exact ⟨acc, rfl⟩
  | cons d ds ih =>
    intro acc hnd
    have hnotmem : d.name ∉ acc.map Prod.fst := by
      intro hmem
      have : ¬List.Disjoint (acc.map Prod.fst) (d.name :: ds.map NodeDep.name) :=
        fun hdisj => hdisj hmem (List.mem_cons_self _ _)
      exact this (List.disjoint_of_nodup_append hnd)
    obtain ⟨acc', hin⟩ := Option.isSome_iff_exists.mp (insertNew_isSome_of_notMem d.name d hnotmem)
    have hperm : List.Perm (acc'.map Prod.fst ++ ds.map NodeDep.name)
        (acc.map Prod.fst ++ (d.name :: ds.map NodeDep.name)) := by
      have h1 := (insertNew_some_perm hin).map Prod.fst
      exact (h1.append_right _).trans List.perm_middle.symm
    have hnd' : (acc'.map Prod.fst ++ ds.map NodeDep.name).Nodup := by
      rw [hperm.nodup_iff]
      simpa using hnd
    obtain ⟨out, hout⟩ := ih hnd'
    refine ⟨out, ?_⟩
    simp only [buildNodeDepsAux, hin]
    exact hout

theorem bnd_ok_perm {deps : List NodeDep} {out : List (String × NodeDep)}
    (h : buildNodeDeps deps = .ok out) :
    List.Perm out (deps.map (fun d => (d.name, d))) := by
  simpa using bndAux_ok_perm h

theorem bnd_ok_sorted {deps : List NodeDep} {out : List (String × NodeDep)}
    (h : buildNodeDeps deps = .ok out) : keySorted out :=
  bndAux_ok_sorted (by simp [keySorted]) h

theorem bnd_ok_names_nodup {deps : List NodeDep} {out : List (String × NodeDep)}
    (h : buildNodeDeps deps = .ok out) : (deps.map NodeDep.name).Nodup := by
  have hperm := (bnd_ok_perm h).map Prod.fst
  have hnodup := keySorted_keys_nodup (bnd_ok_sorted h)
  have : (List.map Prod.fst (deps.map (fun d => (d.name, d)))).Nodup :=
    hperm.nodup_iff.mp hnodup
  simpa [List.map_map, Function.comp] using this

theorem bnd_total {deps : List NodeDep} (hnd : (deps.map NodeDep.name).Nodup) :
    ∃ out, buildNodeDeps deps = .ok out :=
  bndAux_total (by simpa using hnd)

theorem dbpAux_ok_keys_perm {ns : List ResolveNode} :
    ∀ {acc out : List (PackageId × List (String × NodeDep))},
      buildDepsByPackageAux acc ns = .ok out →
      List.Perm (out.map Prod.fst) (acc.map Prod.fst ++ ns.map ResolveNode.id) := by
  induction ns with
  | nil =>
    intro acc out h
    simp only [buildDepsByPackageAux, Except.ok.injEq] at h
    subst h
    simp
  | cons n ns ih =>
    intro acc out h
    simp only [buildDepsByPackageAux] at h
    cases hb : buildNodeDeps n.deps with
    | error e => simp [hb] at h
    | ok deps =>
      simp only [hb] at h
      cases hin : insertNew n.id deps acc with
      | none => rw [hin] at h; simp at h
      | some acc' =>
        rw [hin] at h
        have hperm := (insertNew_some_perm hin).map Prod.fst
        exact (ih h).trans ((hperm.append_right _).trans List.perm_middle.symm)

theorem dbpAux_ok_sorted {ns : List ResolveNode} :
    ∀ {acc out : List (PackageId × List (String × NodeDep))}, keySorted acc →
      buildDepsByPackageAux acc ns = .ok out → keySorted out := by
  induction ns with
  | nil =>
    intro acc out hs h
    simp only [buildDepsByPackageAux, Except.ok.injEq] at h
    subst h
    exact hs
  | cons n ns ih =>
    intro acc out hs h
    simp only [buildDepsByPackageAux] at h
    cases hb : buildNodeDeps n.deps with
    | error e => simp [hb] at h
    | ok deps =>
      simp only [hb] at h
      cases hin : insertNew n.id deps acc with
      | none => rw [hin] at h; simp at h
      | some acc' =>
        rw [hin] at h
        exact ih (insertNew_sorted hs hin) h

theorem dbpAux_ok_mem {ns : List ResolveNode} :
    ∀ {acc out : List (PackageId × List (String × NodeDep))},
      buildDepsByPackageAux acc ns = .ok out →
      ∀ kv ∈ out, kv ∈ acc ∨ ∃ n ∈ ns, kv.1 = n.id ∧ buildNodeDeps n.deps = .ok kv.2 := by
  induction ns with
  | nil =>
    intro acc out h kv hkv
    simp only [buildDepsByPackageAux, Except.ok.injEq] at h
    subst h
    exact Or.inl hkv
  | cons n ns ih =>
    intro acc out h kv hkv
    simp only [buildDepsByPackageAux] at h
    cases hb : buildNodeDeps n.deps with
    | error e => simp [hb] at h
    | ok deps =>
      simp only [hb] at h
      cases hin : insertNew n.id deps acc with
      | none => rw [hin] at h; simp at h
      | some acc' =>
        rw [hin] at h
        rcases ih h kv hkv with hacc' | ⟨n', hn', hid, hbn⟩
        · have : kv ∈ (n.id, deps) :: acc := (insertNew_some_perm hin).mem_iff.mp hacc'
          rcases List.mem_cons.mp this with hkv1 | hkv2
          · subst hkv1
            exact Or.inr ⟨n, List.mem_cons_self _ _, rfl, hb⟩
          · exact Or.inl hkv2
        · exact Or.inr ⟨n', List.mem_cons_of_mem _ hn', hid, hbn⟩

theorem dbpAux_ok_node_names {ns : List ResolveNode} :
    ∀ {acc out : List (PackageId × List (String × NodeDep))},
      buildDepsByPackageAux acc ns = .ok out →
      ∀ n ∈ ns, ∃ dm, buildNodeDeps n.deps = .ok dm := by
  induction ns with
  | nil =>
    intro acc out _ n hn
    simp at hn
  | cons n0 ns ih =>
    intro acc out h n hn
    simp only [buildDepsByPackageAux] at h
    cases hb : buildNodeDeps n0.deps with
    | error e => simp [hb] at h
    | ok deps =>
      simp only [hb] at h
      cases hin : insertNew n0.id deps acc with
      | none => rw [hin] at h; simp at h
      | some acc' =>
        rw [hin] at h
        rcases List.mem_cons.mp hn with hn1 | hn2
        · subst hn1
          exact ⟨deps, hb⟩
        · exact ih h n hn2

theorem dbpAux_total {ns : List ResolveNode} :
    ∀ {acc : List (PackageId × List (String × NodeDep))},
      (∀ n ∈ ns, (n.deps.map NodeDep.name).Nodup) →
      (acc.map Prod.fst ++ ns.map ResolveNode.id).Nodup →
      ∃ out, buildDepsByPackageAux acc ns = .ok out := by
  induction ns with
  | nil =>
    intro acc _ _
    exact ⟨acc, rfl⟩
  | cons n ns ih =>
    intro acc hnames hnd
    obtain ⟨deps, hb⟩ := bnd_total (hnames n (List.mem_cons_self _ _))
    have hnotmem : n.id ∉ acc.map Prod.fst := by
      intro hmem
      exact (List.disjoint_of_nodup_append hnd) hmem (List.mem_cons_self _ _)
    obtain ⟨acc', hin⟩ :=
      Option.isSome_iff_exists.mp (insertNew_isSome_of_notMem n.id deps hnotmem)
    have hperm : List.Perm (acc'.map Prod.fst ++ ns.map ResolveNode.id)
        (acc.map Prod.fst ++ (n.id :: ns.map ResolveNode.id)) := by
      have h1 := (insertNew_some_perm hin).map Prod.fst
      exact (h1.append_right _).trans List.perm_middle.symm
    have hnd' : (acc'.map Prod.fst ++ ns.map ResolveNode.id).Nodup := by
      rw [hperm.nodup_iff]
      simpa using hnd
    obtain ⟨out, hout⟩ := ih (fun n' hn' => hnames n' (List.mem_cons_of_mem _ hn')) hnd'
    refine ⟨out, ?_⟩
    simp only [buildDepsByPackageAux, hb, hin]
    exact hout

theorem aeAux_ok_entries_perm {ps : List Package} :
    ∀ {dbp ent rest out}, addEntriesAux dbp ent ps = .ok (rest, out) →
      List.Perm (out.map Prod.fst) (ent.map Prod.fst ++ ps.map Package.id) := by
  induction ps with
  | nil =>
    intro dbp ent rest out h
    simp only [addEntriesAux, Except.ok.injEq, Prod.mk.injEq] at h
    rw [← h.2]
    simp
  | cons p ps ih =>
    intro dbp ent rest out h
    simp only [addEntriesAux] at h
    cases hp : VerusMetadata.parse_from_package p with
    | error e => simp [hp] at h
    | ok vm =>
      simp only [hp] at h
      cases hr : removeA p.id dbp with
      | none => simp [hr] at h
      | some pr =>
        obtain ⟨deps, dbp'⟩ := pr
        simp only [hr] at h
        cases hin : insertNew p.id
            { package := p, verus_metadata := vm, deps := deps } ent with
        | none => simp [hin] at h
        | some ent' =>
          simp only [hin] at h
          have hperm := (insertNew_some_perm hin).map Prod.fst
          exact (ih h).trans ((hperm.append_right _).trans List.perm_middle.symm)

theorem aeAux_ok_dbp_keys_perm {ps : List Package} :
    ∀ {dbp ent rest out}, addEntriesAux dbp ent ps = .ok (rest, out) →
      List.Perm (dbp.map Prod.fst) (ps.map Package.id ++ rest.map Prod.fst) := by
  induction ps with
  | nil =>
    intro dbp ent rest out h
    simp only [addEntriesAux, Except.ok.injEq, Prod.mk.injEq] at h
    rw [h.1]
    simp
  | cons p ps ih =>
    intro dbp ent rest out h
    simp only [addEntriesAux] at h
    cases hp : VerusMetadata.parse_from_package p with
    | error e => simp [hp] at h
    | ok vm =>
      simp only [hp] at h
      cases hr : removeA p.id dbp with
      | none => simp [hr] at h
      | some pr =>
        obtain ⟨deps, dbp'⟩ := pr
        simp only [hr] at h
        cases hin : insertNew p.id
            { package := p, verus_metadata := vm, deps := deps } ent with
        | none => simp [hin] at h
        | some ent' =>
          simp only [hin] at h
          have hkeys : List.Perm (dbp.map Prod.fst) (p.id :: dbp'.map Prod.fst) :=
            (removeA_some_perm hr).map Prod.fst
          exact hkeys.trans ((ih h).cons p.id)

theorem aeAux_ok_sorted {ps : List Package} :
    ∀ {dbp ent rest out}, keySorted ent → addEntriesAux dbp ent ps = .ok (rest, out) →
      keySorted out := by
  induction ps with
  | nil =>
    intro dbp ent rest out hs h
    simp only [addEntriesAux, Except.ok.injEq, Prod.mk.injEq] at h
    rw [← h.2]
    exact hs
  | cons p ps ih =>
    intro dbp ent rest out hs h
    simp only [addEntriesAux] at h
    cases hp : VerusMetadata.parse_from_package p with
    | error e => simp [hp] at h
    | ok vm =>
      simp only [hp] at h
      cases hr : removeA p.id dbp with
      | none => simp [hr] at h
      | some pr =>
        obtain ⟨deps, dbp'⟩ := pr
        simp only [hr] at h
        cases hin : insertNew p.id
            { package := p, verus_metadata := vm, deps := deps } ent with
        | none => simp [hin] at h
        | some ent' =>
          simp only [hin] at h
          exact ih (insertNew_sorted hs hin) h

theorem aeAux_ok_mem {ps : List Package} :
    ∀ {dbp ent rest out}, addEntriesAux dbp ent ps = .ok (rest, out) →
      ∀ kv ∈ out, kv ∈ ent ∨ ∃ p ∈ ps, kv.1 = p.id ∧ kv.2.package = p ∧
        (p.id, kv.2.deps) ∈ dbp ∧
        VerusMetadata.parse_from_package p = .ok kv.2.verus_metadata := by
  induction ps with
  | nil =>
    intro dbp ent rest out h kv hkv
    simp only [addEntriesAux, Except.ok.injEq, Prod.mk.injEq] at h
    rw [← h.2] at hkv
    exact Or.inl hkv
  | cons p ps ih =>
    intro dbp ent rest out h kv hkv
    simp only [addEntriesAux] at h
    cases hp : VerusMetadata.parse_from_package p with
    | error e => simp [hp] at h
    | ok vm =>
      simp only [hp] at h
      cases hr : removeA p.id dbp with
      | none => simp [hr] at h
      | some pr =>
        obtain ⟨deps, dbp'⟩ := pr
        simp only [hr] at h
        cases hin : insertNew p.id
            { package := p, verus_metadata := vm, deps := deps } ent with
        | none => simp [hin] at h
        | some ent' =>
          simp only [hin] at h
          have hsub : ∀ x, x ∈ dbp' → x ∈ dbp := by
            intro x hx
            exact (removeA_some_perm hr).mem_iff.mpr (List.mem_cons_of_mem _ hx)
          rcases ih h kv hkv with hent' | ⟨p', hp', hid, hpkg, hdbp, hparse⟩
          · have : kv ∈ (p.id, { package := p, verus_metadata := vm, deps := deps }) :: ent :=
              (insertNew_some_perm hin).mem_iff.mp hent'
            rcases List.mem_cons.mp this with hkv1 | hkv2
            · subst hkv1
              refine Or.inr ⟨p, List.mem_cons_self _ _, rfl, rfl, ?_, hp⟩
              exact (removeA_some_perm hr).mem_iff.mpr (List.mem_cons_self _ _)
            · exact Or.inl hkv2
          · exact Or.inr ⟨p', List.mem_cons_of_mem _ hp', hid, hpkg, hsub _ hdbp, hparse⟩

theorem aeAux_ok_parses {ps : List Package} :
    ∀ {dbp ent rest out}, addEntriesAux dbp ent ps = .ok (rest, out) →
      ∀ p ∈ ps, (VerusMetadata.parse_from_package p).isOk = true := by
  induction ps with
  | nil =>
    intro dbp ent rest out _ p hp
    simp at hp
  | cons p0 ps ih =>
    intro dbp ent rest out h p hp
    simp only [addEntriesAux] at h
    cases hp0 : VerusMetadata.parse_from_package p0 with
    | error e => simp [hp0] at h
    | ok vm =>
      simp only [hp0] at h
      cases hr : removeA p0.id dbp with
      | none => simp [hr] at h
      | some pr =>
        obtain ⟨deps, dbp'⟩ := pr
        simp only [hr] at h
        cases hin : insertNew p0.id
            { package := p0, verus_metadata := vm, deps := deps } ent with
        | none => simp [hin] at h
        | some ent' =>
          simp only [hin] at h
          rcases List.mem_cons.mp hp with hp1 | hp2
          · subst hp1
            simp [hp0, Except.isOk, Except.toBool]
          · exact ih h p hp2

theorem aeAux_total {ps : List Package} :
    ∀ {dbp ent}, (∀ p ∈ ps, (VerusMetadata.parse_from_package p).isOk = true) →
      List.Perm (dbp.map Prod.fst) (ps.map Package.id) →
      (ent.map Prod.fst ++ ps.map Package.id).Nodup →
      ∃ out, addEntriesAux dbp ent ps = .ok ([], out) := by
  induction ps with
  | nil =>
    intro dbp ent _ hperm _
    have : dbp.map Prod.fst = [] := hperm.eq_nil
    have hdbp : dbp = [] := List.map_eq_nil_iff.mp this
    subst hdbp
    exact ⟨ent, rfl⟩
  | cons p ps ih =>
    intro dbp ent hparse hperm hnd
    obtain ⟨vm, hp⟩ : ∃ vm, VerusMetadata.parse_from_package p = .ok vm := by
      have := hparse p (List.mem_cons_self _ _)
      cases hcase : VerusMetadata.parse_from_package p with
      | error e => rw [hcase] at this; simp [Except.isOk, Except.toBool] at this
      | ok vm => exact ⟨vm, rfl⟩
    have hmem : p.id ∈ dbp.map Prod.fst := hperm.mem_iff.mpr (List.mem_cons_self _ _)
    obtain ⟨pr, hr⟩ := Option.isSome_iff_exists.mp (removeA_isSome_of_mem hmem)
    obtain ⟨deps, dbp'⟩ := pr
    have hkeys : List.Perm (dbp.map Prod.fst) (p.id :: dbp'.map Prod.fst) :=
      (removeA_some_perm hr).map Prod.fst
    have hperm' : List.Perm (dbp'.map Prod.fst) (ps.map Package.id) :=
      (hkeys.symm.trans hperm).cons_inv
    have hnotmem : p.id ∉ ent.map Prod.fst := by
      intro hm
      exact (List.disjoint_of_nodup_append hnd) hm (List.mem_cons_self _ _)
    obtain ⟨ent', hin⟩ := Option.isSome_iff_exists.mp
      (insertNew_isSome_of_notMem p.id
        { package := p, verus_metadata := vm, deps := deps } hnotmem)
    have hndperm : List.Perm (ent'.map Prod.fst ++ ps.map Package.id)
        (ent.map Prod.fst ++ (p.id :: ps.map Package.id)) := by
      have h1 := (insertNew_some_perm hin).map Prod.fst
      exact (h1.append_right _).trans List.perm_middle.symm
    have hnd' : (ent'.map Prod.fst ++ ps.map Package.id).Nodup := by
      rw [hndperm.nodup_iff]
      simpa using hnd
    obtain ⟨out, hout⟩ := ih (fun q hq => hparse q (List.mem_cons_of_mem _ hq)) hperm' hnd'
    refine ⟨out, ?_⟩
    simp only [addEntriesAux, hp, hr, hin]
    exact hout

theorem new_ok_destruct {m : Metadata} {idx : MetadataIndex}
    (h : MetadataIndex.new m = .ok idx) :
    ∃ r dbp, m.resolve = some r ∧ buildDepsByPackage r.nodes = .ok dbp ∧
      addEntriesAux dbp [] m.packages = .ok ([], idx.entries) := by
  unfold MetadataIndex.new at h
  cases hres : m.resolve with
  | none => rw [hres] at h; simp at h
  | some r =>
    rw [hres] at h
    cases hdbp : buildDepsByPackage r.nodes with
    | error e => simp [hdbp] at h
    | ok dbp =>
      simp only [hdbp] at h
      cases hae : addEntriesAux dbp [] m.packages with
      | error e => simp [hae] at h
      | ok pr =>
        obtain ⟨rest, entries⟩ := pr
        simp only [hae] at h
        cases hrest : rest with
        | nil =>
          rw [hrest] at h
          simp only [List.isEmpty_nil, if_true, Except.ok.injEq] at h
          refine ⟨r, dbp, rfl, hdbp, ?_⟩
          rw [← h]
          rw [hrest] at hae
          exact hae
        | cons x xs =>
          rw [hrest] at h
          simp at h

theorem new_ok_nodes {m : Metadata} {r : Resolve} (hres : m.resolve = some r) :
    resolveNodes m = r.nodes := by
  unfold resolveNodes
  rw [hres]

theorem new_ok_entries_keys_perm {m : Metadata} {idx : MetadataIndex}
    (h : MetadataIndex.new m = .ok idx) :
    List.Perm (idx.entries.map Prod.fst) (packageIds m) := by
  obtain ⟨r, dbp, hres, hdbp, hae⟩ := new_ok_destruct h
  have := aeAux_ok_entries_perm hae
  simpa [packageIds] using this

theorem new_ok_entries_sorted {m : Metadata} {idx : MetadataIndex}
    (h : MetadataIndex.new m = .ok idx) : keySorted idx.entries := by
  obtain ⟨r, dbp, hres, hdbp, hae⟩ := new_ok_destruct h
  exact aeAux_ok_sorted (by simp [keySorted]) hae

theorem new_ok_pkg_nodup {m : Metadata} {idx : MetadataIndex}
    (h : MetadataIndex.new m = .ok idx) : (packageIds m).Nodup := by
  have hperm := new_ok_entries_keys_perm h
  have hnodup := keySorted_keys_nodup (new_ok_entries_sorted h)
  exact hperm.nodup_iff.mp hnodup

theorem new_ok_node_pkg_perm {m : Metadata} {idx : MetadataIndex}
    (h : MetadataIndex.new m = .ok idx) :
    List.Perm (nodeIds m) (packageIds m) := by
  obtain ⟨r, dbp, hres, hdbp, hae⟩ := new_ok_destruct h
  have h1 : List.Perm (dbp.map Prod.fst) (r.nodes.map ResolveNode.id) := by
    simpa using dbpAux_ok_keys_perm hdbp
  have h2 : List.Perm (dbp.map Prod.fst) (m.packages.map Package.id) := by
    simpa using aeAux_ok_dbp_keys_perm hae
  have : nodeIds m = r.nodes.map ResolveNode.id := by
    simp [nodeIds, new_ok_nodes hres]
  rw [this]
  exact (h1.symm.trans h2)

theorem new_ok_nodeIds_nodup {m : Metadata} {idx : MetadataIndex}
    (h : MetadataIndex.new m = .ok idx) : (nodeIds m).Nodup := by
  obtain ⟨r, dbp, hres, hdbp, hae⟩ := new_ok_destruct h
  have hsorted : keySorted dbp := dbpAux_ok_sorted (by simp [keySorted]) hdbp
  have h1 : List.Perm (dbp.map Prod.fst) (r.nodes.map ResolveNode.id) := by
    simpa using dbpAux_ok_keys_perm hdbp
  have : nodeIds m = r.nodes.map ResolveNode.id := by
    simp [nodeIds, new_ok_nodes hres]
  rw [this]
  exact h1.nodup_iff.mp (keySorted_keys_nodup hsorted)

theorem new_ok_dep_names_nodup {m : Metadata} {idx : MetadataIndex}
    (h : MetadataIndex.new m = .ok idx) :
    ∀ n ∈ resolveNodes m, (n.deps.map NodeDep.name).Nodup := by
  obtain ⟨r, dbp, hres, hdbp, hae⟩ := new_ok_destruct h
  intro n hn
  rw [new_ok_nodes hres] at hn
  obtain ⟨dm, hdm⟩ := dbpAux_ok_node_names hdbp n hn
  exact bnd_ok_names_nodup hdm

theorem new_ok_parses {m : Metadata} {idx : MetadataIndex}
    (h : MetadataIndex.new m = .ok idx) :
    ∀ p ∈ m.packages, (VerusMetadata.parse_from_package p).isOk = true := by
  obtain ⟨r, dbp, hres, hdbp, hae⟩ := new_ok_destruct h
  exact aeAux_ok_parses hae

theorem new_ok_entry_inv {m : Metadata} {idx : MetadataIndex}
    (h : MetadataIndex.new m = .ok idx) :
    ∀ kv ∈ idx.entries, kv.2.package ∈ m.packages ∧ kv.1 = kv.2.package.id ∧
      keySorted kv.2.deps ∧
      ∀ kd ∈ kv.2.deps, kd.1 = kd.2.name ∧ ∃ n ∈ resolveNodes m, kd.2 ∈ n.deps := by
  obtain ⟨r, dbp, hres, hdbp, hae⟩ := new_ok_destruct h
  intro kv hkv
  rcases aeAux_ok_mem hae kv hkv with hnil | ⟨p, hp, hid, hpkg, hdbpmem, hparse⟩
  · simp at hnil
  · rcases dbpAux_ok_mem hdbp _ hdbpmem with hnil | ⟨n, hn, hnid, hbn⟩
    · simp at hnil
    · refine ⟨hpkg ▸ hp, by rw [hid, hpkg], bnd_ok_sorted hbn, ?_⟩
      intro kd hkd
      have : kd ∈ n.deps.map (fun d => (d.name, d)) := (bnd_ok_perm hbn).mem_iff.mp hkd
      obtain ⟨d, hd, hkd'⟩ := List.mem_map.mp this
      constructor
      · rw [← hkd']
      · refine ⟨n, ?_, ?_⟩
        · rw [new_ok_nodes hres]
          exact hn
        · rw [← hkd']
          exact hd

theorem dbp_total {ns : List ResolveNode}
    (hnames : ∀ n ∈ ns, (n.deps.map NodeDep.name).Nodup)
    (hnd : (ns.map ResolveNode.id).Nodup) :
    ∃ out, buildDepsByPackage ns = .ok out := by
  unfold buildDepsByPackage
  exact dbpAux_total hnames (by simpa using hnd)

theorem ae_total_nil {ps : List Package} {dbp : List (PackageId × List (String × NodeDep))}
    (hparse : ∀ p ∈ ps, (VerusMetadata.parse_from_package p).isOk = true)
    (hperm : List.Perm (dbp.map Prod.fst) (ps.map Package.id))
    (hnd : (ps.map Package.id).Nodup) :
    ∃ out, addEntriesAux dbp [] ps = .ok ([], out) :=
  aeAux_total hparse hperm (by simpa using hnd)

theorem new_total {m : Metadata} (hwf : WFMetadata m) :
    ∃ idx, MetadataIndex.new m = .ok idx ∧
      idx.entries.length = m.packages.length ∧
      ∀ p ∈ m.packages, (idx.get p.id).isSome = true := by
  obtain ⟨hres, hnames, hnodes, hperm, hparse⟩ := hwf
  obtain ⟨r, hr⟩ := Option.isSome_iff_exists.mp hres
  have hnodesEq : resolveNodes m = r.nodes := new_ok_nodes hr
  have hnodeIds : nodeIds m = r.nodes.map ResolveNode.id := by
    simp [nodeIds, hnodesEq]
  obtain ⟨dbp, hdbp⟩ := dbp_total
    (fun n hn => hnames n (by rw [hnodesEq]; exact hn))
    (by rw [← hnodeIds]; exact hnodes)
  have hdbpkeys : List.Perm (dbp.map Prod.fst) (m.packages.map Package.id) := by
    have h1 : List.Perm (dbp.map Prod.fst) (r.nodes.map ResolveNode.id) := by
      simpa using dbpAux_ok_keys_perm hdbp
    have h2 := hperm
    rw [hnodeIds] at h2
    exact h1.trans (by simpa [packageIds] using h2)
  have hpkgnodup : (m.packages.map Package.id).Nodup := by
    have := hperm.nodup_iff.mp hnodes
    simpa [packageIds] using this
  obtain ⟨out, hout⟩ := ae_total_nil hparse hdbpkeys hpkgnodup
  have hkeys2 : List.Perm (out.map Prod.fst) (m.packages.map Package.id) := by
    simpa using aeAux_ok_entries_perm hout
  refine ⟨{ entries := out }, ?_, ?_, ?_⟩
  · unfold MetadataIndex.new
    rw [hr]
    simp only [hdbp, hout, List.isEmpty_nil, if_true]
  · have hlen := hkeys2.length_eq
    simpa using hlen
  · intro p hp
    have hmem : p.id ∈ out.map Prod.fst :=
      hkeys2.mem_iff.mpr (List.mem_map_of_mem Package.id hp)
    unfold MetadataIndex.get
    exact lookupA_isSome_iff.mpr hmem

/-- C2 (amended): over a well-formed graph (resolve present, per-node
dependency names distinct, node ids distinct and in bijection with package
ids, all tool metadata parseable) index construction succeeds with exactly one
entry per package, each package reachable by its id; it fails when a package
id repeats, when the node-id multiset differs from the package-id multiset, or
when a node declares two dependencies under one name.  A dependency edge whose
target id is absent from the package list is NOT rejected at construction
(see the counterexample): only node-list/package-list agreement is checked. -/
theorem C2_index_construction (m : Metadata) :
    (WFMetadata m →
      ∃ idx, MetadataIndex.new m = .ok idx ∧
        idx.entries.length = m.packages.length ∧
        ∀ p ∈ m.packages, (idx.get p.id).isSome = true) ∧
    (¬ (packageIds m).Nodup → (MetadataIndex.new m).isOk = false) ∧
    (¬ List.Perm (nodeIds m) (packageIds m) → (MetadataIndex.new m).isOk = false) ∧
    ((∃ n ∈ resolveNodes m, ¬ (n.deps.map NodeDep.name).Nodup) →
      (MetadataIndex.new m).isOk = false) := by
  refine ⟨new_total, ?_, ?_, ?_⟩
  · intro hnd
    cases hnew : MetadataIndex.new m with
    | error e => rfl
    | ok idx => exact absurd (new_ok_pkg_nodup hnew) hnd
  · intro hnp
    cases hnew : MetadataIndex.new m with
    | error e => rfl
    | ok idx => exact absurd (new_ok_node_pkg_perm hnew) hnp
  · intro hex
    obtain ⟨n, hn, hdup⟩ := hex
    cases hnew : MetadataIndex.new m with
    | error e => rfl
    | ok idx => exact absurd (new_ok_dep_names_nodup hnew n hn) hdup

/-- C2 counterexample: in `mDangling` a dependency edge references the id
`idMissing`, which is absent from the package list, yet `MetadataIndex::new`
succeeds — the stated failure condition (b) is not checked at construction. -/
theorem C2_claim_counterexample :
    (MetadataIndex.new mDangling).isOk = true ∧
    (depTargets mDangling).contains "idMissing" = true ∧
    (packageIds mDangling).contains "idMissing" = false := by
  refine ⟨?_, ?_, ?_⟩ <;> decide

/-- C2 witness: the amended theorem at concrete graphs — a well-formed
three-package graph succeeds; a duplicated package, a node/package mismatch,
and a duplicated dependency name each make construction fail. -/
theorem C2_index_construction_witness :
    (MetadataIndex.new mGood).isOk = true ∧
    (MetadataIndex.new mDupPkg).isOk = false ∧
    (MetadataIndex.new mMismatch).isOk = false ∧
    (MetadataIndex.new mDupDep).isOk = false := by
  refine ⟨?_, ?_, ?_, ?_⟩
  · obtain ⟨idx, hidx, _, _⟩ := (C2_index_construction mGood).1 (by decide)
    rw [hidx]
    rfl
  · exact (C2_index_construction mDupPkg).2.1 (by decide)
  · exact (C2_index_construction mMismatch).2.2.1 (by decide)
  · exact (C2_index_construction mDupDep).2.2.2 (by decide)

/-- C7 (amended): for an index constructed successfully from a graph
satisfying the collaborator contract that every dependency-edge target id
appears in the package list, `MetadataIndex::get` succeeds on every id that
appears as a dependency-edge target in any entry; the construction invariant
alone does not guarantee this (see the counterexample), the contract is
needed. -/
theorem C7_get_on_dep_targets (m : Metadata) (idx : MetadataIndex)
    (h : MetadataIndex.new m = .ok idx)
    (hcontract : ∀ n ∈ resolveNodes m, ∀ d ∈ n.deps, d.pkg ∈ packageIds m) :
    ∀ kv ∈ idx.entries, ∀ kd ∈ kv.2.deps, (idx.get kd.2.pkg).isSome = true := by
  intro kv hkv kd hkd
  obtain ⟨_, _, _, hdeps⟩ := new_ok_entry_inv h kv hkv
  obtain ⟨_, n, hn, hd⟩ := hdeps kd hkd
  have htgt : kd.2.pkg ∈ packageIds m := hcontract n hn kd.2 hd
  have hmem : kd.2.pkg ∈ idx.entries.map Prod.fst :=
    (new_ok_entries_keys_perm h).mem_iff.mpr htgt
  unfold MetadataIndex.get
  exact lookupA_isSome_iff.mpr hmem

/-- C7 counterexample: `mDangling`'s index is constructed successfully, the id
`idMissing` appears as a dependency-edge target in an entry, and the lookup on
it fails — the `unwrap` inside `get` is reachable after successful
construction. -/
theorem C7_claim_counterexample :
    MetadataIndex.new mDangling = .ok idxDangling ∧
    (idxDangling.entries.any
      (fun kv => kv.2.deps.any (fun kd => kd.2.pkg = "idMissing"))) = true ∧
    idxDangling.get "idMissing" = none := by
  refine ⟨rfl, ?_, rfl⟩
  decide

/-- C7 witness: in the three-package graph every dependency target resolves. -/
theorem C7_get_on_dep_targets_witness :
    (idxGood.entries.all
      (fun kv => kv.2.deps.all (fun kd => (idxGood.get kd.2.pkg).isSome))) = true := by
  obtain ⟨idx, hidx, _, _⟩ := new_total (show WFMetadata mGood by decide)
  have hgood : idxGood = idx := by
    unfold idxGood
    rw [hidx]
  have h := C7_get_on_dep_targets mGood idx hidx (by decide)
  rw [hgood, List.all_eq_true]
  intro kv hkv
  rw [List.all_eq_true]
  intro kd hkd
  exact h kv hkv kd hkd

theorem deriveDepArgs_eq_filterMap (idx : MetadataIndex) :
    ∀ (deps : List (String × NodeDep)),
      (∀ kd ∈ deps, (idx.get kd.2.pkg).isSome = true) →
      deriveDepArgs idx deps = some (deps.filterMap (fun kd =>
        match idx.get kd.2.pkg with
        | some depEntry =>
          if depEntry.verus_metadata.verify then some (importDepInstr kd.2.name) else none
        | none => none)) := by
  intro deps
  induction deps with
  | nil => intro _; rfl
  | cons kd ds ih =>
    intro h
    obtain ⟨k, d⟩ := kd
    obtain ⟨depEntry, hget⟩ := Option.isSome_iff_exists.mp (h (k, d) (List.mem_cons_self _ _))
    have htail := ih (fun x hx => h x (List.mem_cons_of_mem _ hx))
    simp only [deriveDepArgs, hget, htail, List.filterMap_cons]
    cases hv : depEntry.verus_metadata.verify with
    | false => simp
    | true => simp

/-- C1: for every entry of a successfully constructed index whose metadata has
`verify == true` and whose dependency targets all resolve, the derived
per-package instruction list is exactly: one role instruction per true boolean
among `is_core`, `is_vstd`, `no_vstd` (in that order), followed by one
`--verus-driver-arg=--import-dep-if-present=<declared name>` instruction per
dependency edge whose target's metadata has `verify == true`, in the index's
edge order — which is ascending declared dependency name, the map keys being
the declared names; edges whose target has `verify == false` contribute
nothing. -/
theorem C1_per_package_args (m : Metadata) (idx : MetadataIndex)
    (h : MetadataIndex.new m = .ok idx) :
    ∀ kv ∈ idx.entries, kv.2.verus_metadata.verify = true →
      (∀ kd ∈ kv.2.deps, (idx.get kd.2.pkg).isSome = true) →
      verus_driver_args_for_package idx kv.2 = some (specInstructionList idx kv.2) ∧
      List.Pairwise (fun kd kd' => kd.1 < kd'.1) kv.2.deps ∧
      (∀ kd ∈ kv.2.deps, kd.1 = kd.2.name) := by
  intro kv hkv _ htargets
  obtain ⟨_, _, hsorted, hdeps⟩ := new_ok_entry_inv h kv hkv
  refine ⟨?_, hsorted, fun kd hkd => (hdeps kd hkd).1⟩
  unfold verus_driver_args_for_package specInstructionList
  rw [deriveDepArgs_eq_filterMap idx kv.2.deps htargets]
  rfl

/-- C1 witness: in the three-package graph, package `a` (verified, `is_core`,
depending on verified `b` and unverified `c`) derives exactly the `is-core`
role instruction followed by the import instruction for `b`; `c` contributes
nothing, and the edge list is ascending by declared name. -/
theorem C1_per_package_args_witness :
    verus_driver_args_for_package idxGood entryA =
      some ["--verus-arg=--is-core", importDepInstr "b"] ∧
    verus_driver_args_for_package idxGood entryA = some (specInstructionList idxGood entryA) ∧
    List.Pairwise (fun kd kd' => kd.1 < kd'.1) entryA.deps := by
  have hmem : ("idA", entryA) ∈ idxGood.entries := by
    have hent : idxGood.entries = [("idA", entryA), ("idB", entryB), ("idC", entryC)] := rfl
    rw [hent]
    exact List.mem_cons_self _ _
  have h := C1_per_package_args mGood idxGood rfl ("idA", entryA) hmem rfl
    (by
      intro kd hkd
      have hdeps : entryA.deps = [("b", { name := "b", pkg := "idB" }),
          ("c", { name := "c", pkg := "idC" })] := rfl
      rw [hdeps] at hkd
      rcases List.mem_cons.mp hkd with h1 | h2
      · subst h1
        rfl
      · rcases List.mem_cons.mp h2 with h3 | h4
        · subst h3
          rfl
        · simp at h4)
  exact ⟨rfl, h.1, h.2.1⟩

theorem append_ne_of_length_ne {p1 p2 : String} (pid : String)
    (h : p1.length ≠ p2.length) : p1 ++ pid ≠ p2 ++ pid := by
  intro he
  apply h
  have hlen := congrArg String.length he
  simp only [String.length_append] at hlen
  omega

theorem argsFor_ne_isBuiltin (pid : String) :
    argsForVarName pid ≠ "__VERUS_DRIVER_IS_BUILTIN_" ++ pid :=
  append_ne_of_length_ne pid (by decide)

theorem argsFor_ne_isBuiltinMacros (pid : String) :
    argsForVarName pid ≠ "__VERUS_DRIVER_IS_BUILTIN_MACROS_" ++ pid :=
  append_ne_of_length_ne pid (by decide)

theorem argsFor_ne_verify (pid : String) :
    argsForVarName pid ≠ "__VERUS_DRIVER_VERIFY_" ++ pid :=
  append_ne_of_length_ne pid (by decide)

theorem mem_builtinVars_name {e : MetadataIndexEntry} {pid : String}
    {x : String × String}
    (hx : x ∈ (if e.verus_metadata.is_builtin then
        [("__VERUS_DRIVER_IS_BUILTIN_" ++ pid, "1")] else []) ++
      (if e.verus_metadata.is_builtin_macros then
        [("__VERUS_DRIVER_IS_BUILTIN_MACROS_" ++ pid, "1")] else [])) :
    x.1 = "__VERUS_DRIVER_IS_BUILTIN_" ++ pid ∨
      x.1 = "__VERUS_DRIVER_IS_BUILTIN_MACROS_" ++ pid := by
  rcases List.mem_append.mp hx with h1 | h2
  · left
    cases hb : e.verus_metadata.is_builtin
    · rw [hb] at h1
      simp at h1
    · rw [hb] at h1
      simp only [if_true, List.mem_singleton] at h1
      rw [h1]
  · right
    cases hb : e.verus_metadata.is_builtin_macros
    · rw [hb] at h2
      simp at h2
    · rw [hb] at h2
      simp only [if_true, List.mem_singleton] at h2
      rw [h2]

/-- C9: given an entry's environment contribution, the per-package
instruction-list variable `__VERUS_DRIVER_ARGS_FOR_<id>` is among it exactly
when the entry's metadata has `verify == true` and the derived instruction
list is non-empty; in particular an entry with `verify == false` never
contributes such a variable. -/
theorem C9_args_for_var (idx : MetadataIndex) (e : MetadataIndexEntry)
    (envs : List (String × String))
    (h : entryEnvVars idx e = some envs) :
    (∃ val, (argsForVarName (mk_package_id e.package.name e.package.version
        e.package.manifest_path), val) ∈ envs) ↔
      (e.verus_metadata.verify = true ∧
        ∃ args, verus_driver_args_for_package idx e = some args ∧ args ≠ []) := by
  unfold entryEnvVars at h
  cases hv : e.verus_metadata.verify with
  | false =>
    rw [hv] at h
    simp only [Bool.false_eq_true, if_false, Option.some.injEq] at h
    constructor
    · intro hex
      obtain ⟨_val, hmem⟩ := hex
      rw [← h] at hmem
      exfalso
      rcases mem_builtinVars_name hmem with h1 | h2
      · exact argsFor_ne_isBuiltin _ h1
      · exact argsFor_ne_isBuiltinMacros _ h2
    · intro hrhs
      exact absurd hrhs.1 (by simp)
  | true =>
    rw [hv] at h
    simp only [if_true] at h
    cases hd : verus_driver_args_for_package idx e with
    | none => rw [hd] at h; simp at h
    | some args =>
      rw [hd] at h
      simp only [Option.some.injEq] at h
      cases hargs : args.isEmpty with
      | true =>
        have hanil : args = [] := List.isEmpty_iff.mp hargs
        rw [hargs] at h
        simp only [if_true, List.append_nil] at h
        constructor
        · intro hex
          obtain ⟨val, hmem⟩ := hex
          rw [← h] at hmem
          exfalso
          rcases List.mem_append.mp hmem with h1 | h2
          · rcases mem_builtinVars_name h1 with hb1 | hb2
            · exact argsFor_ne_isBuiltin _ hb1
            · exact argsFor_ne_isBuiltinMacros _ hb2
          · simp only [List.mem_singleton] at h2
            have := congrArg Prod.fst h2
            exact argsFor_ne_verify _ this
        · intro hrhs
          obtain ⟨_, args', hargs', hne⟩ := hrhs
          injection hargs' with he2
          refine absurd ?_ hne
          rw [← he2]
          exact hanil
      | false =>
        rw [hargs] at h
        simp only [Bool.false_eq_true, if_false] at h
        constructor
        · intro _
          refine ⟨rfl, args, rfl, ?_⟩
          intro hnil
          rw [hnil] at hargs
          simp at hargs
        · intro _
          refine ⟨pack_verus_driver_args_for_env args, ?_⟩
          rw [← h]
          refine List.mem_append.mpr (Or.inr ?_)
          exact List.mem_singleton.mpr rfl

set_option maxRecDepth 8000 in
/-- C9 witness: package `a`'s contribution includes its
`__VERUS_DRIVER_ARGS_FOR_<id>` variable, since it is verified with a non-empty
derived instruction list. -/
theorem C9_args_for_var_witness :
    ∃ val, (argsForVarName (mk_package_id entryA.package.name entryA.package.version
        entryA.package.manifest_path), val) ∈ envsA :=
  (C9_args_for_var idxGood entryA envsA rfl).mpr
    ⟨rfl, ["--verus-arg=--is-core", importDepInstr "b"], rfl, by decide⟩
